import Mathlib

/-!
Verification of the CONTROL-file paragraph parser of `toolsrc/src/Paragraphs.cpp`.

The parser is embedded shallowly: the C++ `Parser` keeps a cursor `cur` into the
input together with a one-character lookahead `ch` that is always the character
at `cur`, or `0` once `cur` reaches the end.  We model the cursor state as the
remaining suffix of the input (a `List Char`); `peekc` returns the current
character, with the NUL sentinel for the empty suffix, exactly as `Parser::peek`
does.  Process-terminating checks (`Checks::check_exit`) are modeled as tagged
errors in `Except`, matching the error taxonomy of the design.
-/

namespace Vcpkg

/-- The NUL sentinel `Parser::peek` stores into `ch` at end-of-input. -/
def nul : Char := Char.ofNat 0

/-- Embeds `Parser::is_alphanum`: `(ch >= 'A' && ch <= 'Z') || (ch >= 'a' && ch <= 'z') || (ch >= '0' && ch <= '9')`. -/
def is_alphanum (c : Char) : Bool :=
  ('A' ≤ c && c ≤ 'Z') || ('a' ≤ c && c ≤ 'z') || ('0' ≤ c && c ≤ '9')

/-- The horizontal-whitespace test of `Parser::skip_spaces`: `ch == ' ' || ch == '\t'`. -/
def is_space (c : Char) : Bool := c = ' ' || c = '\t'

/-- Embeds `Parser::is_lineend`: `ch == '\r' || ch == '\n' || ch == 0`. -/
def is_lineend (c : Char) : Bool := c = '\r' || c = '\n' || c = nul

/-- Embeds `Parser::peek`: the current character, or the NUL sentinel at end-of-input. -/
def peekc : List Char → Char
  | [] => nul
  | c :: _ => c

/-- Embeds `Parser::skip_spaces`: `while (ch == ' ' || ch == '\t') next(ch);`. -/
def skip_spaces : List Char → List Char
  | [] => []
  | c :: rest => if is_space c then skip_spaces rest else c :: rest

/-- Embeds the line scan of `get_fieldvalue`: `while (!is_lineend(ch)) next(ch);`
followed by `fieldvalue.append(beginning_of_line, cur)`.  Returns the scanned
slice (the characters strictly before the line end) and the remaining suffix,
which starts at the terminating `'\r'`/`'\n'`/NUL or is empty at end-of-input. -/
def scan_line : List Char → List Char × List Char
  | [] => ([], [])
  | c :: rest =>
    if is_lineend c then ([], c :: rest)
    else ((scan_line rest).1.cons c, (scan_line rest).2)

/-- Embeds the terminator consumption of `get_fieldvalue`:
`if (ch == '\r') next(ch); if (ch == '\n') next(ch);`. -/
def drop_crlf (l : List Char) : List Char :=
  if peekc l = '\r' then
    (if peekc l.tail = '\n' then l.tail.tail else l.tail)
  else
    (if peekc l = '\n' then l.tail else l)

/-- Embeds the field-name run of `get_fieldname`:
`while (is_alphanum(ch) || ch == '-') next(ch);`.  Returns the run and the rest. -/
def scan_fieldname : List Char → List Char × List Char
  | [] => ([], [])
  | c :: rest =>
    if is_alphanum c || c = '-' then
      ((scan_fieldname rest).1.cons c, (scan_fieldname rest).2)
    else ([], c :: rest)

/-- The `Checks::check_exit(... ch == ':' ...)` test of `get_fieldname`:
the character terminating the field-name run must be `':'`. -/
def fieldname_ok (l : List Char) : Bool := peekc (scan_fieldname l).2 = ':'

/-- The field name captured by `get_fieldname`: `std::string(begin_fieldname, cur)`. -/
def fieldname_of (l : List Char) : List Char := (scan_fieldname l).1

/-- The cursor position after `get_fieldname` succeeds: the `':'` is consumed
(`next(ch)`) and horizontal whitespace after it is skipped (`skip_spaces(ch)`). -/
def after_fieldname (l : List Char) : List Char := skip_spaces (scan_fieldname l).2.tail

/-- The error taxonomy of the parser.  `check_exit` failures of the C++ are
modeled as recoverable tagged errors: "Expected ':'" is `MalformedFieldName`,
"Duplicate field" is `DuplicateField`, and `EXPECTED_ONE_PARAGRAPH` of
`parse_single_paragraph` is `ExpectedOnlyOneParagraph`. -/
inductive ParseError where
  | MalformedFieldName : ParseError
  | DuplicateField : ParseError
  | ExpectedOnlyOneParagraph : ParseError
deriving DecidableEq, Repr

/-- Embeds `Parser::get_fieldname`. -/
def get_fieldname (l : List Char) : Except ParseError (List Char × List Char) :=
  if fieldname_ok l then Except.ok (fieldname_of l, after_fieldname l)
  else Except.error ParseError.MalformedFieldName

/-- Rewrites every `"\n"` line terminator of an input into `"\r\n"`, producing
the CRLF-terminated sibling of an LF-terminated input (meaningful when the
input has no `'\r'` of its own). -/
def crlf_expand : List Char → List Char
  | [] => []
  | c :: rest => if c = '\n' then '\r' :: '\n' :: crlf_expand rest else c :: crlf_expand rest

section TerminationLemmas

theorem scan_line_append (l : List Char) : (scan_line l).1 ++ (scan_line l).2 = l := by
  induction l with
  | nil => simp [scan_line]
  | cons c rest ih =>
    simp only [scan_line]
    split
    · simp
    · simpa using ih

theorem scan_line_snd_le (l : List Char) : (scan_line l).2.length ≤ l.length := by
  conv_rhs => rw [← scan_line_append l]
  simp

theorem scan_line_lineend (l : List Char) : is_lineend (peekc (scan_line l).2) = true := by
  induction l with
  | nil => simp [scan_line, peekc, is_lineend, nul]
  | cons c rest ih =>
    simp only [scan_line]
    split
    · simpa [peekc] using ‹is_lineend c = true›
    · simpa using ih

theorem skip_spaces_le (l : List Char) : (skip_spaces l).length ≤ l.length := by
  induction l with
  | nil => simp [skip_spaces]
  | cons c rest ih =>
    simp only [skip_spaces]
    split
    · exact Nat.le_succ_of_le ih
    · simp

theorem skip_spaces_of_lineend (l : List Char) (h : is_lineend (peekc l) = true) :
    skip_spaces l = l := by
  cases l with
  | nil => simp [skip_spaces]
  | cons c rest =>
    simp only [peekc, is_lineend, Bool.or_eq_true, decide_eq_true_eq] at h
    have hc : is_space c = false := by
      rcases h with (h | h) | h <;> subst h <;> decide
    simp [skip_spaces, hc]

theorem fv_step_lt (l : List Char)
    (h : is_lineend (peekc (skip_spaces (drop_crlf (scan_line l).2))) = false) :
    (drop_crlf (scan_line l).2).length < l.length := by
  have hle := scan_line_snd_le l
  have hlineend := scan_line_lineend l
  rcases hr : (scan_line l).2 with _ | ⟨c, t⟩
  · rw [hr] at h
    simp [drop_crlf, skip_spaces, peekc, is_lineend] at h
  · rw [hr] at hlineend hle h
    simp only [peekc, is_lineend, Bool.or_eq_true, decide_eq_true_eq] at hlineend
    rcases hlineend with (hc | hc) | hc
    · subst hc
      have h2 : (drop_crlf ('\r' :: t)).length ≤ t.length := by
        simp only [drop_crlf, peekc, List.tail_cons]
        norm_num
        split
        · simp [List.length_tail]
        · simp
      simp only [List.length_cons] at hle
      omega
    · subst hc
      have h1 : drop_crlf ('\n' :: t) = t := by
        simp [drop_crlf, peekc]
      rw [h1]
      simp only [List.length_cons] at hle
      omega
    · exfalso
      subst hc
      have h1 : drop_crlf (nul :: t) = nul :: t := by
        simp [drop_crlf, peekc, nul]
      have h2 : skip_spaces (nul :: t) = nul :: t := by
        simp [skip_spaces, is_space, nul]
      rw [h1, h2] at h
      simp [peekc, is_lineend] at h

end TerminationLemmas

/-- The loop of `Parser::get_fieldvalue`, with `acc` the `fieldvalue` buffer.
Each iteration scans the current line, appends the scanned slice, consumes the
`"\r\n"` / `"\r"` / `"\n"` terminator, and classifies the next line: a line
starting alphanumeric begins a new field (stop, slice not consumed); a line that
is blank after horizontal-whitespace skipping terminates field and paragraph
(stop, whitespace consumed); anything else continues the value from the
un-skipped line start after a single `'\n'` separator. -/
def get_fieldvalue_loop (acc : List Char) (l : List Char) : List Char × List Char :=
  if is_alphanum (peekc (drop_crlf (scan_line l).2)) then
    (acc ++ (scan_line l).1, drop_crlf (scan_line l).2)
  else if h : is_lineend (peekc (skip_spaces (drop_crlf (scan_line l).2))) then
    (acc ++ (scan_line l).1, skip_spaces (drop_crlf (scan_line l).2))
  else
    get_fieldvalue_loop (acc ++ (scan_line l).1 ++ ['\n']) (drop_crlf (scan_line l).2)
termination_by l.length
decreasing_by
  exact fv_step_lt l (by simpa using h)

/-- Embeds `Parser::get_fieldvalue` (the buffer starts cleared: `fieldvalue.clear()`). -/
def get_fieldvalue (l : List Char) : List Char × List Char := get_fieldvalue_loop [] l

theorem get_fieldvalue_loop_snd_le (acc l : List Char) :
    (get_fieldvalue_loop acc l).2.length ≤ l.length := by
  induction acc, l using get_fieldvalue_loop.induct with
  | case1 acc l h =>
    rw [get_fieldvalue_loop, if_pos h]
    calc (drop_crlf (scan_line l).2).length
        ≤ (scan_line l).2.length := by
          simp only [drop_crlf]
          split
          · split
            · simp [List.length_tail]; omega
            · simp [List.length_tail]
          · split
            · simp [List.length_tail]
            · simp
      _ ≤ l.length := scan_line_snd_le l
  | case2 acc l h1 h2 =>
    rw [get_fieldvalue_loop, if_neg h1, dif_pos h2]
    calc (skip_spaces (drop_crlf (scan_line l).2)).length
        ≤ (drop_crlf (scan_line l).2).length := skip_spaces_le _
      _ ≤ (scan_line l).2.length := by
          simp only [drop_crlf]
          split
          · split
            · simp [List.length_tail]; omega
            · simp [List.length_tail]
          · split
            · simp [List.length_tail]
            · simp
      _ ≤ l.length := scan_line_snd_le l
  | case3 acc l h1 h2 ih =>
    rw [get_fieldvalue_loop, if_neg h1, dif_neg h2]
    have hlt := fv_step_lt l (by simpa using h2)
    omega

theorem scan_fieldname_append (l : List Char) :
    (scan_fieldname l).1 ++ (scan_fieldname l).2 = l := by
  induction l with
  | nil => simp [scan_fieldname]
  | cons c rest ih =>
    simp only [scan_fieldname]
    split
    · simpa using ih
    · simp

theorem after_fieldname_lt (l : List Char) (h : fieldname_ok l = true) :
    (after_fieldname l).length < l.length := by
  have happ := scan_fieldname_append l
  simp only [fieldname_ok, decide_eq_true_eq] at h
  rcases hr : (scan_fieldname l).2 with _ | ⟨c, t⟩
  · rw [hr] at h
    simp only [peekc] at h
    exact absurd h (by decide)
  · have hlen : (scan_fieldname l).2.length ≤ l.length := by
      have h2 := congrArg List.length happ
      simp only [List.length_append] at h2
      omega
    rw [hr] at hlen
    have : (after_fieldname l).length ≤ t.length := by
      simp only [after_fieldname, hr, List.tail_cons]
      exact skip_spaces_le t
    simp only [List.length_cons] at hlen
    omega

/-- The loop of `Parser::get_paragraph`, with `fields` the accumulated mapping
(as an association list in insertion order).  Each iteration runs
`get_fieldname` (aborting with `MalformedFieldName` if the name run is not
terminated by `':'`), rejects a name already present (`DuplicateField`), reads
the value, inserts the pair, and repeats until the cursor rests on a
line-terminator/end-of-input (`while (!is_lineend(ch))`). -/
def get_paragraph_loop (fields : List (List Char × List Char)) (l : List Char) :
    Except ParseError (List (List Char × List Char) × List Char) :=
  if fieldname_ok l = false then Except.error ParseError.MalformedFieldName
  else if fields.any (fun f => f.1 = fieldname_of l) then
    Except.error ParseError.DuplicateField
  else if is_lineend (peekc (get_fieldvalue (after_fieldname l)).2) then
    Except.ok (fields ++ [(fieldname_of l, (get_fieldvalue (after_fieldname l)).1)],
      (get_fieldvalue (after_fieldname l)).2)
  else
    get_paragraph_loop (fields ++ [(fieldname_of l, (get_fieldvalue (after_fieldname l)).1)])
      (get_fieldvalue (after_fieldname l)).2
termination_by l.length
decreasing_by
  have h1 : fieldname_ok l = true := by
    revert ‹¬fieldname_ok l = false›
    cases fieldname_ok l <;> simp
  have h2 := after_fieldname_lt l h1
  have h3 := get_fieldvalue_loop_snd_le [] (after_fieldname l)
  simp only [get_fieldvalue] at h3 ⊢
  omega

/-- Embeds `Parser::get_paragraph` (the mapping starts cleared: `fields.clear()`). -/
def get_paragraph (l : List Char) :
    Except ParseError (List (List Char × List Char) × List Char) :=
  get_paragraph_loop [] l

theorem gp_step_badname (fields : List (List Char × List Char)) (l : List Char)
    (h : fieldname_ok l = false) :
    get_paragraph_loop fields l = Except.error ParseError.MalformedFieldName := by
  rw [get_paragraph_loop]
  simp [h]

theorem gp_step_dup (fields : List (List Char × List Char)) (l : List Char)
    (h1 : fieldname_ok l = true)
    (h2 : fields.any (fun f => f.1 = fieldname_of l) = true) :
    get_paragraph_loop fields l = Except.error ParseError.DuplicateField := by
  rw [get_paragraph_loop]
  simp [h1, h2]

theorem gp_step_done (fields : List (List Char × List Char)) (l : List Char)
    (h1 : fieldname_ok l = true)
    (h2 : fields.any (fun f => f.1 = fieldname_of l) = false)
    (h3 : is_lineend (peekc (get_fieldvalue (after_fieldname l)).2) = true) :
    get_paragraph_loop fields l =
      Except.ok (fields ++ [(fieldname_of l, (get_fieldvalue (after_fieldname l)).1)],
        (get_fieldvalue (after_fieldname l)).2) := by
  rw [get_paragraph_loop]
  simp [h1, h2, h3]

theorem gp_step_cont (fields : List (List Char × List Char)) (l : List Char)
    (h1 : fieldname_ok l = true)
    (h2 : fields.any (fun f => f.1 = fieldname_of l) = false)
    (h3 : is_lineend (peekc (get_fieldvalue (after_fieldname l)).2) = false) :
    get_paragraph_loop fields l =
      get_paragraph_loop (fields ++ [(fieldname_of l, (get_fieldvalue (after_fieldname l)).1)])
        (get_fieldvalue (after_fieldname l)).2 := by
  rw [get_paragraph_loop]
  simp [h1, h2, h3]

theorem get_paragraph_loop_snd_lt (fields : List (List Char × List Char)) (l : List Char)
    (flds : List (List Char × List Char)) (rest : List Char)
    (h : get_paragraph_loop fields l = Except.ok (flds, rest)) :
    rest.length < l.length := by
  induction fields, l using get_paragraph_loop.induct with
  | case1 fields l h1 =>
    rw [gp_step_badname fields l h1] at h
    exact absurd h (by simp)
  | case2 fields l h1 h2 =>
    have h1' : fieldname_ok l = true := by
      revert h1; cases fieldname_ok l <;> simp
    rw [gp_step_dup fields l h1' h2] at h
    exact absurd h (by simp)
  | case3 fields l h1 h2 h3 =>
    have h1' : fieldname_ok l = true := by
      revert h1; cases fieldname_ok l <;> simp
    have h2' : fields.any (fun f => f.1 = fieldname_of l) = false := by
      revert h2; cases fields.any (fun f => f.1 = fieldname_of l) <;> simp
    rw [gp_step_done fields l h1' h2' h3] at h
    have hrest : rest = (get_fieldvalue (after_fieldname l)).2 := by
      simp only [Except.ok.injEq, Prod.mk.injEq] at h
      exact h.2.symm
    have hlt := after_fieldname_lt l h1'
    have hle := get_fieldvalue_loop_snd_le [] (after_fieldname l)
    simp only [get_fieldvalue] at hrest
    subst hrest
    omega
  | case4 fields l h1 h2 h3 ih =>
    have h1' : fieldname_ok l = true := by
      revert h1; cases fieldname_ok l <;> simp
    have h2' : fields.any (fun f => f.1 = fieldname_of l) = false := by
      revert h2; cases fields.any (fun f => f.1 = fieldname_of l) <;> simp
    have h3' : is_lineend (peekc (get_fieldvalue (after_fieldname l)).2) = false := by
      revert h3; cases is_lineend (peekc (get_fieldvalue (after_fieldname l)).2) <;> simp
    rw [gp_step_cont fields l h1' h2' h3'] at h
    have hlt := after_fieldname_lt l h1'
    have hle := get_fieldvalue_loop_snd_le [] (after_fieldname l)
    simp only [get_fieldvalue] at ih
    have := ih h
    omega

theorem get_paragraph_ok_lt (l : List Char) (pr : List (List Char × List Char) × List Char)
    (h : get_paragraph l = Except.ok pr) : pr.2.length < l.length :=
  get_paragraph_loop_snd_lt [] l pr.1 pr.2 (by simpa [get_paragraph] using h)

/-- A paragraph: the field mapping of one record, kept as an association list in
insertion order (the C++ uses `std::unordered_map`; the observable content is
the name-value mapping). -/
abbrev Paragraph := List (List Char × List Char)

/-- The loop of `Parser::get_paragraphs`: `while (ch != 0)`, skipping blank-line
characters (`'\n'`, `'\r'`, `' '`, `'\t'`) between paragraphs and otherwise
reading one paragraph.  A NUL character mid-input makes `ch` zero exactly like
end-of-input, so the loop stops there as well. -/
def get_paragraphs_loop (acc : List Paragraph) (l : List Char) :
    Except ParseError (List Paragraph) :=
  match l with
  | [] => Except.ok acc
  | c :: rest =>
    if c = nul then Except.ok acc
    else if c = '\n' || c = '\r' || c = ' ' || c = '\t' then get_paragraphs_loop acc rest
    else
      match h : get_paragraph (c :: rest) with
      | Except.error e => Except.error e
      | Except.ok pr => get_paragraphs_loop (acc ++ [pr.1]) pr.2
termination_by l.length
decreasing_by
  · simp
  · exact get_paragraph_ok_lt _ _ (by assumption)

/-- Embeds `Parser::get_paragraphs`. -/
def get_paragraphs (l : List Char) : Except ParseError (List Paragraph) :=
  get_paragraphs_loop [] l

/-- Embeds `Paragraphs::parse_paragraphs` (string entry point). -/
def parse_paragraphs (l : List Char) : Except ParseError (List Paragraph) :=
  get_paragraphs l

/-- Embeds `Paragraphs::parse_single_paragraph`: parse, then require exactly one
paragraph (`if (p.size() == 1) return p.at(0);` else `EXPECTED_ONE_PARAGRAPH`). -/
def parse_single_paragraph (l : List Char) : Except ParseError Paragraph :=
  match parse_paragraphs l with
  | Except.error e => Except.error e
  | Except.ok ps =>
    match ps with
    | [p] => Except.ok p
    | _ => Except.error ParseError.ExpectedOnlyOneParagraph

/-- Embeds `Paragraphs::get_single_paragraph`: the file-level wrapper receives
the result of the injected text read; a read error propagates unchanged, and on
success the text-level contract applies. -/
def get_single_paragraph {ε : Type} (contents : Except ε (List Char)) :
    Except (ε ⊕ ParseError) Paragraph :=
  match contents with
  | Except.error e => Except.error (Sum.inl e)
  | Except.ok s => (parse_single_paragraph s).mapError Sum.inr

section ParagraphsStepLemmas

theorem gps_step_nil (acc : List Paragraph) : get_paragraphs_loop acc [] = Except.ok acc := by
  rw [get_paragraphs_loop]

theorem gps_step_nul (acc : List Paragraph) (c : Char) (rest : List Char) (h : c = nul) :
    get_paragraphs_loop acc (c :: rest) = Except.ok acc := by
  rw [get_paragraphs_loop]
  simp [h]

theorem gps_step_blank (acc : List Paragraph) (c : Char) (rest : List Char)
    (h0 : (c = nul) = False)
    (h : (c = '\n' || c = '\r' || c = ' ' || c = '\t') = true) :
    get_paragraphs_loop acc (c :: rest) = get_paragraphs_loop acc rest := by
  rw [get_paragraphs_loop]
  simp [h0, h]

theorem gps_step_err (acc : List Paragraph) (c : Char) (rest : List Char) (e : ParseError)
    (h0 : (c = nul) = False)
    (h1 : (c = '\n' || c = '\r' || c = ' ' || c = '\t') = false)
    (h2 : get_paragraph (c :: rest) = Except.error e) :
    get_paragraphs_loop acc (c :: rest) = Except.error e := by
  rw [get_paragraphs_loop]
  simp only [h0, if_false, h1, Bool.false_eq_true, eq_self_iff_true]
  split
  · rename_i heq
    rw [h2] at heq
    cases heq
    rfl
  · rename_i pr heq
    rw [h2] at heq
    cases heq

theorem gps_step_ok (acc : List Paragraph) (c : Char) (rest : List Char)
    (flds : Paragraph) (l2 : List Char)
    (h0 : (c = nul) = False)
    (h1 : (c = '\n' || c = '\r' || c = ' ' || c = '\t') = false)
    (h2 : get_paragraph (c :: rest) = Except.ok (flds, l2)) :
    get_paragraphs_loop acc (c :: rest) = get_paragraphs_loop (acc ++ [flds]) l2 := by
  rw [get_paragraphs_loop]
  simp only [h0, if_false, h1, Bool.false_eq_true, eq_self_iff_true]
  split
  · rename_i heq
    rw [h2] at heq
    cases heq
  · rename_i pr heq
    rw [h2] at heq
    cases heq
    rfl

end ParagraphsStepLemmas

/-- The port record projected from a parsed CONTROL paragraph; only the fields
`extract_port_names_and_versions` reads (`port.name`, `port.version`). -/
structure SourceParagraph where
  name : String
  version : String

/-- The insertion loop of `extract_port_names_and_versions`: for each port in
sequence order, `names_and_versions.emplace(port.name, port.version)` — which
inserts only when the key is not yet present, so the first occurrence wins. -/
def extract_loop (acc : List (String × String)) : List SourceParagraph → List (String × String)
  | [] => acc
  | p :: rest =>
    extract_loop (if acc.any (fun q => q.1 = p.name) then acc else acc ++ [(p.name, p.version)])
      rest

/-- Embeds `Paragraphs::extract_port_names_and_versions`.  The `std::map` is
modeled by its observable lookup behavior over the association list built by
conditional insertion. -/
def extract_port_names_and_versions (ports : List SourceParagraph) : List (String × String) :=
  extract_loop [] ports

/-- Lookup in the name-to-version mapping. -/
def lookup_version (m : List (String × String)) (n : String) : Option String :=
  (m.find? (fun q => q.1 = n)).map (fun q => q.2)

section ConcreteEvaluations

theorem eval_fv_A1 : get_fieldvalue (after_fieldname ('A' :: ": 1\n".toList)) = ("1".toList, []) := by
  rw [get_fieldvalue, get_fieldvalue_loop]
  decide

theorem eval_gp_A1 : get_paragraph ('A' :: ": 1\n".toList) =
    Except.ok ([("A".toList, "1".toList)], []) := by
  rw [get_paragraph, gp_step_done _ _ (by decide) (by decide) (by rw [eval_fv_A1]; decide),
    eval_fv_A1]
  refine congrArg Except.ok ?_
  decide

theorem eval_parse_A1 : parse_paragraphs ("A: 1\n".toList) =
    Except.ok [[("A".toList, "1".toList)]] := by
  rw [parse_paragraphs, get_paragraphs,
    show ("A: 1\n".toList) = 'A' :: ": 1\n".toList from rfl,
    gps_step_ok _ _ _ _ _ (by decide) (by decide) eval_gp_A1,
    gps_step_nil]
  rfl

theorem eval_fv_name : get_fieldvalue (after_fieldname ('N' :: "ame: foo\n bar\n".toList)) =
    ("foo\n bar".toList, []) := by
  rw [get_fieldvalue, get_fieldvalue_loop, if_neg (by decide), dif_neg (by decide),
    get_fieldvalue_loop]
  decide

theorem eval_gp_name : get_paragraph ('N' :: "ame: foo\n bar\n".toList) =
    Except.ok ([("Name".toList, "foo\n bar".toList)], []) := by
  rw [get_paragraph, gp_step_done _ _ (by decide) (by decide) (by rw [eval_fv_name]; decide),
    eval_fv_name]
  refine congrArg Except.ok ?_
  decide

theorem eval_parse_name : parse_paragraphs ("Name: foo\n bar\n".toList) =
    Except.ok [[("Name".toList, "foo\n bar".toList)]] := by
  rw [parse_paragraphs, get_paragraphs,
    show ("Name: foo\n bar\n".toList) = 'N' :: "ame: foo\n bar\n".toList from rfl,
    gps_step_ok _ _ _ _ _ (by decide) (by decide) eval_gp_name,
    gps_step_nil]
  rfl

theorem eval_fv_name2 : get_fieldvalue (after_fieldname ('N' :: "ame:   foo\n   bar\n".toList)) =
    ("foo\n   bar".toList, []) := by
  rw [get_fieldvalue, get_fieldvalue_loop, if_neg (by decide), dif_neg (by decide),
    get_fieldvalue_loop]
  decide

theorem eval_gp_name2 : get_paragraph ('N' :: "ame:   foo\n   bar\n".toList) =
    Except.ok ([("Name".toList, "foo\n   bar".toList)], []) := by
  rw [get_paragraph, gp_step_done _ _ (by decide) (by decide) (by rw [eval_fv_name2]; decide),
    eval_fv_name2]
  refine congrArg Except.ok ?_
  decide

theorem eval_parse_name2 : parse_paragraphs ("Name:   foo\n   bar\n".toList) =
    Except.ok [[("Name".toList, "foo\n   bar".toList)]] := by
  rw [parse_paragraphs, get_paragraphs,
    show ("Name:   foo\n   bar\n".toList) = 'N' :: "ame:   foo\n   bar\n".toList from rfl,
    gps_step_ok _ _ _ _ _ (by decide) (by decide) eval_gp_name2,
    gps_step_nil]
  rfl

theorem eval_fv_wsend : get_fieldvalue (after_fieldname ('A' :: ": x\n \t".toList)) =
    ("x".toList, []) := by
  rw [get_fieldvalue, get_fieldvalue_loop]
  decide

theorem eval_gp_wsend : get_paragraph ('A' :: ": x\n \t".toList) =
    Except.ok ([("A".toList, "x".toList)], []) := by
  rw [get_paragraph, gp_step_done _ _ (by decide) (by decide) (by rw [eval_fv_wsend]; decide),
    eval_fv_wsend]
  refine congrArg Except.ok ?_
  decide

theorem eval_parse_wsend : parse_paragraphs ("A: x\n \t".toList) =
    Except.ok [[("A".toList, "x".toList)]] := by
  rw [parse_paragraphs, get_paragraphs,
    show ("A: x\n \t".toList) = 'A' :: ": x\n \t".toList from rfl,
    gps_step_ok _ _ _ _ _ (by decide) (by decide) eval_gp_wsend,
    gps_step_nil]
  rfl

theorem eval_fv_emptyname : get_fieldvalue (after_fieldname (':' :: " x\n".toList)) =
    ("x".toList, []) := by
  rw [get_fieldvalue, get_fieldvalue_loop]
  decide

theorem eval_gp_emptyname : get_paragraph (':' :: " x\n".toList) =
    Except.ok ([(([] : List Char), "x".toList)], []) := by
  rw [get_paragraph, gp_step_done _ _ (by decide) (by decide) (by rw [eval_fv_emptyname]; decide),
    eval_fv_emptyname]
  refine congrArg Except.ok ?_
  decide

theorem eval_parse_emptyname : parse_paragraphs (": x\n".toList) =
    Except.ok [[(([] : List Char), "x".toList)]] := by
  rw [parse_paragraphs, get_paragraphs,
    show (": x\n".toList) = ':' :: " x\n".toList from rfl,
    gps_step_ok _ _ _ _ _ (by decide) (by decide) eval_gp_emptyname,
    gps_step_nil]
  rfl

theorem eval_fv_dupA : get_fieldvalue (after_fieldname ('A' :: ": 1\nA: 2\n".toList)) =
    ("1".toList, "A: 2\n".toList) := by
  rw [get_fieldvalue, get_fieldvalue_loop]
  decide

theorem eval_gp_dupA : get_paragraph ('A' :: ": 1\nA: 2\n".toList) =
    Except.error ParseError.DuplicateField := by
  rw [get_paragraph, gp_step_cont _ _ (by decide) (by decide) (by rw [eval_fv_dupA]; decide),
    eval_fv_dupA, gp_step_dup _ _ (by decide) (by decide)]

theorem eval_parse_dupA : parse_paragraphs ("A: 1\nA: 2\n".toList) =
    Except.error ParseError.DuplicateField := by
  rw [parse_paragraphs, get_paragraphs,
    show ("A: 1\nA: 2\n".toList) = 'A' :: ": 1\nA: 2\n".toList from rfl,
    gps_step_err _ _ _ _ (by decide) (by decide) eval_gp_dupA]

theorem eval_fv_AB1 : get_fieldvalue (after_fieldname ('A' :: ": 1\n\nB: 2\n".toList)) =
    ("1".toList, "\nB: 2\n".toList) := by
  rw [get_fieldvalue, get_fieldvalue_loop]
  decide

theorem eval_gp_AB1 : get_paragraph ('A' :: ": 1\n\nB: 2\n".toList) =
    Except.ok ([("A".toList, "1".toList)], "\nB: 2\n".toList) := by
  rw [get_paragraph, gp_step_done _ _ (by decide) (by decide) (by rw [eval_fv_AB1]; decide),
    eval_fv_AB1]
  refine congrArg Except.ok ?_
  decide

theorem eval_fv_B2 : get_fieldvalue (after_fieldname ('B' :: ": 2\n".toList)) =
    ("2".toList, []) := by
  rw [get_fieldvalue, get_fieldvalue_loop]
  decide

theorem eval_gp_B2 : get_paragraph ('B' :: ": 2\n".toList) =
    Except.ok ([("B".toList, "2".toList)], []) := by
  rw [get_paragraph, gp_step_done _ _ (by decide) (by decide) (by rw [eval_fv_B2]; decide),
    eval_fv_B2]
  refine congrArg Except.ok ?_
  decide

theorem eval_parse_AB : parse_paragraphs ("A: 1\n\nB: 2\n".toList) =
    Except.ok [[("A".toList, "1".toList)], [("B".toList, "2".toList)]] := by
  rw [parse_paragraphs, get_paragraphs,
    show ("A: 1\n\nB: 2\n".toList) = 'A' :: ": 1\n\nB: 2\n".toList from rfl,
    gps_step_ok _ _ _ _ _ (by decide) (by decide) eval_gp_AB1,
    show ("\nB: 2\n".toList) = '\n' :: "B: 2\n".toList from rfl,
    gps_step_blank _ _ _ (by decide) (by decide),
    show ("B: 2\n".toList) = 'B' :: ": 2\n".toList from rfl,
    gps_step_ok _ _ _ _ _ (by decide) (by decide) eval_gp_B2,
    gps_step_nil]
  rfl

theorem eval_parse_empty : parse_paragraphs ([] : List Char) = Except.ok [] := by
  rw [parse_paragraphs, get_paragraphs, gps_step_nil]

end ConcreteEvaluations

section ShapeInvariants

theorem scan_fieldname_chars (l : List Char) :
    ∀ c ∈ (scan_fieldname l).1, (is_alphanum c || c = '-') = true := by
  induction l with
  | nil => simp [scan_fieldname]
  | cons c rest ih =>
    simp only [scan_fieldname]
    split
    · intro x hx
      simp only [List.cons] at hx
      rcases List.mem_cons.mp hx with rfl | hx2
      · assumption
      · exact ih x hx2
    · simp

theorem scan_line_fst_not_lineend (l : List Char) :
    ∀ c ∈ (scan_line l).1, is_lineend c = false := by
  induction l with
  | nil => simp [scan_line]
  | cons c rest ih =>
    simp only [scan_line]
    split
    · simp
    · intro x hx
      simp only [List.cons] at hx
      rcases List.mem_cons.mp hx with rfl | hx2
      · rename_i hc
        revert hc
        cases is_lineend x <;> simp
      · exact ih x hx2

theorem scan_line_fst_nil (l : List Char) (h : (scan_line l).1 = []) :
    is_lineend (peekc l) = true := by
  cases l with
  | nil => simp [peekc, is_lineend, nul]
  | cons c rest =>
    simp only [scan_line] at h
    by_cases hc : is_lineend c = true
    · simpa [peekc] using hc
    · rw [if_neg (by simp [hc])] at h
      simp at h

theorem skip_spaces_of_lineend_ne (l : List Char)
    (h : is_lineend (peekc (skip_spaces l)) = false) : is_lineend (peekc l) = false := by
  by_cases hl : is_lineend (peekc l) = true
  · rw [skip_spaces_of_lineend l hl] at h
    rw [h] at hl
    cases hl
  · revert hl
    cases is_lineend (peekc l) <;> simp

theorem get_fieldvalue_loop_shape (acc l : List Char)
    (hacc_r : '\r' ∉ acc)
    (hacc_last : acc.getLast? = some '\n' → is_lineend (peekc l) = false) :
    '\r' ∉ (get_fieldvalue_loop acc l).1 ∧
      (get_fieldvalue_loop acc l).1.getLast? ≠ some '\n' := by
  induction acc, l using get_fieldvalue_loop.induct with
  | case1 acc l h1 =>
    rw [get_fieldvalue_loop, if_pos h1]
    constructor
    · intro hmem
      rcases List.mem_append.mp hmem with hm | hm
      · exact hacc_r hm
      · have := scan_line_fst_not_lineend l _ hm
        simp [is_lineend] at this
    · rcases hsl : (scan_line l).1 with _ | ⟨x, xs⟩
      · intro heq
        simp only [hsl, List.append_nil] at heq
        have h2 := hacc_last heq
        have h3 := scan_line_fst_nil l hsl
        rw [h3] at h2
        cases h2
      · rw [List.getLast?_append_of_ne_nil _ (by simp [hsl])]
        intro heq
        have hx : '\n' ∈ (scan_line l).1 := by
          rw [hsl]
          rcases List.mem_getLast?_eq_getLast heq with ⟨hne, hxeq⟩
          rw [hxeq]
          exact List.getLast_mem hne
        have := scan_line_fst_not_lineend l _ hx
        simp [is_lineend] at this
  | case2 acc l h1 h2 =>
    rw [get_fieldvalue_loop, if_neg h1, dif_pos h2]
    constructor
    · intro hmem
      rcases List.mem_append.mp hmem with hm | hm
      · exact hacc_r hm
      · have := scan_line_fst_not_lineend l _ hm
        simp [is_lineend] at this
    · rcases hsl : (scan_line l).1 with _ | ⟨x, xs⟩
      · intro heq
        simp only [hsl, List.append_nil] at heq
        have hc := hacc_last heq
        have h3 := scan_line_fst_nil l hsl
        rw [h3] at hc
        cases hc
      · rw [List.getLast?_append_of_ne_nil _ (by simp [hsl])]
        intro heq
        have hx : '\n' ∈ (scan_line l).1 := by
          rw [hsl]
          rcases List.mem_getLast?_eq_getLast heq with ⟨hne, hxeq⟩
          rw [hxeq]
          exact List.getLast_mem hne
        have := scan_line_fst_not_lineend l _ hx
        simp [is_lineend] at this
  | case3 acc l h1 h2 ih =>
    rw [get_fieldvalue_loop, if_neg h1, dif_neg h2]
    refine ih ?_ ?_
    · intro hmem
      rcases List.mem_append.mp hmem with hm | hm
      · rcases List.mem_append.mp hm with hm2 | hm2
        · exact hacc_r hm2
        · have := scan_line_fst_not_lineend l _ hm2
          simp [is_lineend] at this
      · simp at hm
    · intro _
      exact skip_spaces_of_lineend_ne _ (by
        revert h2
        cases is_lineend (peekc (skip_spaces (drop_crlf (scan_line l).2))) <;> simp)

theorem get_fieldvalue_shape (l : List Char) :
    '\r' ∉ (get_fieldvalue l).1 ∧ (get_fieldvalue l).1.getLast? ≠ some '\n' := by
  rw [get_fieldvalue]
  exact get_fieldvalue_loop_shape [] l (by simp) (by simp)

theorem get_paragraph_loop_inv (fields : List (List Char × List Char)) (l : List Char)
    (flds : List (List Char × List Char)) (rest : List Char)
    (h : get_paragraph_loop fields l = Except.ok (flds, rest))
    (hf : ∀ nv ∈ fields, (∀ c ∈ nv.1, (is_alphanum c || c = '-') = true) ∧
      '\r' ∉ nv.2 ∧ nv.2.getLast? ≠ some '\n')
    (hnd : (fields.map Prod.fst).Nodup) :
    (∀ nv ∈ flds, (∀ c ∈ nv.1, (is_alphanum c || c = '-') = true) ∧
      '\r' ∉ nv.2 ∧ nv.2.getLast? ≠ some '\n')
    ∧ (flds.map Prod.fst).Nodup := by
  induction fields, l using get_paragraph_loop.induct with
  | case1 fields l h1 =>
    rw [gp_step_badname fields l h1] at h
    exact absurd h (by simp)
  | case2 fields l h1 h2 =>
    have h1' : fieldname_ok l = true := by
      revert h1; cases fieldname_ok l <;> simp
    rw [gp_step_dup fields l h1' h2] at h
    exact absurd h (by simp)
  | case3 fields l h1 h2 h3 =>
    have h1' : fieldname_ok l = true := by
      revert h1; cases fieldname_ok l <;> simp
    have h2' : fields.any (fun f => f.1 = fieldname_of l) = false := by
      revert h2; cases fields.any (fun f => f.1 = fieldname_of l) <;> simp
    rw [gp_step_done fields l h1' h2' h3] at h
    simp only [Except.ok.injEq, Prod.mk.injEq] at h
    rcases h with ⟨hflds, _⟩
    subst hflds
    constructor
    · intro nv hnv
      rcases List.mem_append.mp hnv with hm | hm
      · exact hf nv hm
      · simp only [List.mem_singleton] at hm
        subst hm
        refine ⟨?_, (get_fieldvalue_shape _).1, (get_fieldvalue_shape _).2⟩
        exact scan_fieldname_chars l
    · rw [List.map_append, List.nodup_append]
      refine ⟨hnd, by simp, ?_⟩
      intro x hx hx2
      simp only [List.map_cons, List.map_nil, List.mem_singleton] at hx2
      subst hx2
      rcases List.mem_map.mp hx with ⟨f, hfmem, hffst⟩
      have : fields.any (fun f => f.1 = fieldname_of l) = true := by
        rw [List.any_eq_true]
        exact ⟨f, hfmem, by simp [hffst]⟩
      rw [this] at h2'
      cases h2'
  | case4 fields l h1 h2 h3 ih =>
    have h1' : fieldname_ok l = true := by
      revert h1; cases fieldname_ok l <;> simp
    have h2' : fields.any (fun f => f.1 = fieldname_of l) = false := by
      revert h2; cases fields.any (fun f => f.1 = fieldname_of l) <;> simp
    have h3' : is_lineend (peekc (get_fieldvalue (after_fieldname l)).2) = false := by
      revert h3; cases is_lineend (peekc (get_fieldvalue (after_fieldname l)).2) <;> simp
    rw [gp_step_cont fields l h1' h2' h3'] at h
    refine ih h ?_ ?_
    · intro nv hnv
      rcases List.mem_append.mp hnv with hm | hm
      · exact hf nv hm
      · simp only [List.mem_singleton] at hm
        subst hm
        refine ⟨?_, (get_fieldvalue_shape _).1, (get_fieldvalue_shape _).2⟩
        exact scan_fieldname_chars l
    · rw [List.map_append, List.nodup_append]
      refine ⟨hnd, by simp, ?_⟩
      intro x hx hx2
      simp only [List.map_cons, List.map_nil, List.mem_singleton] at hx2
      subst hx2
      rcases List.mem_map.mp hx with ⟨f, hfmem, hffst⟩
      have : fields.any (fun f => f.1 = fieldname_of l) = true := by
        rw [List.any_eq_true]
        exact ⟨f, hfmem, by simp [hffst]⟩
      rw [this] at h2'
      cases h2'

theorem get_paragraphs_loop_inv (acc : List Paragraph) (l : List Char) (res : List Paragraph)
    (h : get_paragraphs_loop acc l = Except.ok res)
    (hacc : ∀ p ∈ acc, (∀ nv ∈ p, (∀ c ∈ nv.1, (is_alphanum c || c = '-') = true) ∧
      '\r' ∉ nv.2 ∧ nv.2.getLast? ≠ some '\n') ∧ (p.map Prod.fst).Nodup) :
    ∀ p ∈ res, (∀ nv ∈ p, (∀ c ∈ nv.1, (is_alphanum c || c = '-') = true) ∧
      '\r' ∉ nv.2 ∧ nv.2.getLast? ≠ some '\n') ∧ (p.map Prod.fst).Nodup := by
  induction acc, l using get_paragraphs_loop.induct with
  | case1 acc =>
    rw [gps_step_nil] at h
    simp only [Except.ok.injEq] at h
    subst h
    exact hacc
  | case2 acc rest =>
    rw [gps_step_nul acc nul rest rfl] at h
    simp only [Except.ok.injEq] at h
    subst h
    exact hacc
  | case3 acc c rest h0 h1 ih =>
    rw [gps_step_blank acc c rest (by simp [h0]) h1] at h
    exact ih h hacc
  | case4 acc c rest h0 h1 e he =>
    have h1' : (c = '\n' || c = '\r' || c = ' ' || c = '\t') = false := by
      revert h1; cases (c = '\n' || c = '\r' || c = ' ' || c = '\t') <;> simp
    rw [gps_step_err acc c rest e (by simp [h0]) h1' (by simpa using he)] at h
    cases h
  | case5 acc c rest h0 h1 pr hpr ih =>
    have h1' : (c = '\n' || c = '\r' || c = ' ' || c = '\t') = false := by
      revert h1; cases (c = '\n' || c = '\r' || c = ' ' || c = '\t') <;> simp
    rw [gps_step_ok acc c rest pr.1 pr.2 (by simp [h0]) h1' (by simpa using hpr)] at h
    refine ih h ?_
    intro p hp
    rcases List.mem_append.mp hp with hm | hm
    · exact hacc p hm
    · simp only [List.mem_singleton] at hm
      subst hm
      have := get_paragraph_loop_inv [] (c :: rest) pr.1 pr.2
        (by simpa [get_paragraph] using hpr) (by simp) (by simp)
      exact this

theorem parse_paragraphs_inv (l : List Char) (ps : List Paragraph)
    (h : parse_paragraphs l = Except.ok ps) :
    ∀ p ∈ ps, (∀ nv ∈ p, (∀ c ∈ nv.1, (is_alphanum c || c = '-') = true) ∧
      '\r' ∉ nv.2 ∧ nv.2.getLast? ≠ some '\n') ∧ (p.map Prod.fst).Nodup := by
  rw [parse_paragraphs, get_paragraphs] at h
  exact get_paragraphs_loop_inv [] l ps h (by simp)

end ShapeInvariants

section SingleParagraphLemmas

theorem parse_single_iff (l : List Char) (p : Paragraph) :
    parse_single_paragraph l = Except.ok p ↔ parse_paragraphs l = Except.ok [p] := by
  rw [parse_single_paragraph]
  cases hps : parse_paragraphs l with
  | error e => simp
  | ok ps =>
    cases ps with
    | nil => simp
    | cons q qs =>
      cases qs with
      | nil => simp
      | cons r rs => simp

theorem parse_single_not_one (l : List Char) (ps : List Paragraph)
    (h : parse_paragraphs l = Except.ok ps) (hlen : ps.length ≠ 1) :
    parse_single_paragraph l = Except.error ParseError.ExpectedOnlyOneParagraph := by
  rw [parse_single_paragraph, h]
  cases ps with
  | nil => rfl
  | cons q qs =>
    cases qs with
    | nil => simp at hlen
    | cons r rs => rfl

end SingleParagraphLemmas

section ExtractLemmas

theorem lookup_version_append (a b : List (String × String)) (n : String) :
    lookup_version (a ++ b) n = (lookup_version a n).or (lookup_version b n) := by
  induction a with
  | nil => simp [lookup_version]
  | cons q qs ih =>
    by_cases hq : q.1 = n
    · simp [lookup_version, List.find?_cons_of_pos, hq]
    · simp only [List.cons_append]
      rw [lookup_version, List.find?_cons_of_neg _ (by simp [hq])]
      rw [show lookup_version (q :: qs) n =
        lookup_version qs n from by rw [lookup_version, List.find?_cons_of_neg _ (by simp [hq])]; rfl]
      exact ih

theorem lookup_version_of_any_false (acc : List (String × String)) (n : String)
    (h : acc.any (fun q => q.1 = n) = false) : lookup_version acc n = none := by
  rw [lookup_version, List.find?_eq_none.mpr]
  · rfl
  · intro x hx
    intro hpx
    have : acc.any (fun q => q.1 = n) = true := List.any_eq_true.mpr ⟨x, hx, hpx⟩
    rw [this] at h
    cases h

theorem lookup_version_of_any_true (acc : List (String × String)) (n : String)
    (h : acc.any (fun q => q.1 = n) = true) : ∃ v, lookup_version acc n = some v := by
  rcases List.any_eq_true.mp h with ⟨q, hq, hq2⟩
  rw [lookup_version]
  rcases hf : acc.find? (fun q => q.1 = n) with _ | ⟨w⟩
  · rw [List.find?_eq_none] at hf
    exact absurd hq2 (hf q hq)
  · rw [hf]
    exact ⟨w.2, rfl⟩

theorem extract_loop_lookup (ports : List SourceParagraph) (acc : List (String × String))
    (n : String) :
    lookup_version (extract_loop acc ports) n =
      (lookup_version acc n).or
        (Option.map (fun p => p.version) (ports.find? (fun p => p.name = n))) := by
  induction ports generalizing acc with
  | nil => simp [extract_loop]
  | cons p rest ih =>
    rw [extract_loop]
    rw [ih]
    by_cases hn : p.name = n
    · by_cases hany : acc.any (fun q => q.1 = p.name) = true
      · rw [if_pos hany]
        rcases lookup_version_of_any_true acc n (by rw [← hn]; exact hany) with ⟨v, hv⟩
        rw [hv]
        rw [List.find?_cons_of_pos _ (by simp [hn])]
        rfl
      · rw [if_neg hany]
        rw [lookup_version_append]
        have hnone : lookup_version acc n = none := by
          refine lookup_version_of_any_false acc n ?_
          rw [← hn]
          revert hany
          cases acc.any (fun q => q.1 = p.name) <;> simp
        rw [hnone]
        rw [show lookup_version [(p.name, p.version)] n = some p.version from by
          simp [lookup_version, List.find?_cons_of_pos, hn]]
        rw [List.find?_cons_of_pos _ (by simp [hn])]
        rfl
    · rw [List.find?_cons_of_neg _ (by simp [hn])]
      by_cases hany : acc.any (fun q => q.1 = p.name) = true
      · rw [if_pos hany]
      · rw [if_neg hany]
        rw [lookup_version_append]
        rw [show lookup_version [(p.name, p.version)] n = none from by
          simp [lookup_version, List.find?_cons_of_neg, hn]]
        rw [Option.or_none]

end ExtractLemmas

/-- C3 counterexample: the claim that every field name of a successful parse is
non-empty fails — `": x\n"` parses successfully to one paragraph whose single
field has the empty name (the `while (is_alphanum(ch) || ch == '-')` run is
empty and the `':'` check still passes). -/
theorem claim_C3_counterexample :
    ¬ (∀ (l : List Char) (ps : List Paragraph), parse_paragraphs l = Except.ok ps →
        ∀ p ∈ ps, ∀ nv ∈ p, nv.1 ≠ ([] : List Char)) := by
  intro h
  exact h (": x\n".toList) [[(([] : List Char), "x".toList)]] eval_parse_emptyname
    [(([] : List Char), "x".toList)] (by simp) (([] : List Char), "x".toList) (by simp) rfl

/-- C3 (amended): in every successfully parsed Document, every field name is a
(possibly empty) string over `[A-Za-z0-9-]`: each of its characters is
alphanumeric or `'-'`. -/
theorem claim_C3 (l : List Char) (ps : List Paragraph)
    (h : parse_paragraphs l = Except.ok ps) :
    ∀ p ∈ ps, ∀ nv ∈ p, ∀ c ∈ nv.1, (is_alphanum c || c = '-') = true := by
  intro p hp nv hnv
  exact ((parse_paragraphs_inv l ps h p hp).1 nv hnv).1

/-- C3 witness: the amended claim applied to the concrete parse of `"A: 1\n"`. -/
theorem claim_C3_witness :
    parse_paragraphs ("A: 1\n".toList) = Except.ok [[("A".toList, "1".toList)]] ∧
      (∀ p ∈ [[("A".toList, "1".toList)]], ∀ nv ∈ p, ∀ c ∈ nv.1,
        (is_alphanum c || c = '-') = true) :=
  ⟨eval_parse_A1, claim_C3 ("A: 1\n".toList) [[("A".toList, "1".toList)]] eval_parse_A1⟩

/-- C4: parsing `"A: 1\nA: 2\n"` fails with `DuplicateField` and produces no
Document; and in every successfully parsed Document the field names of each
paragraph are pairwise distinct. -/
theorem claim_C4 :
    parse_paragraphs ("A: 1\nA: 2\n".toList) = Except.error ParseError.DuplicateField ∧
    ∀ (l : List Char) (ps : List Paragraph), parse_paragraphs l = Except.ok ps →
      ∀ p ∈ ps, (p.map Prod.fst).Nodup := by
  refine ⟨eval_parse_dupA, ?_⟩
  intro l ps h p hp
  exact (parse_paragraphs_inv l ps h p hp).2

/-- C4 witness: the distinctness half applied to the concrete parse of
`"A: 1\n\nB: 2\n"`. -/
theorem claim_C4_witness :
    parse_paragraphs ("A: 1\n\nB: 2\n".toList) =
      Except.ok [[("A".toList, "1".toList)], [("B".toList, "2".toList)]] ∧
    (∀ p ∈ [[("A".toList, "1".toList)], [("B".toList, "2".toList)]],
      (p.map Prod.fst).Nodup) :=
  ⟨eval_parse_AB, claim_C4.2 ("A: 1\n\nB: 2\n".toList)
    [[("A".toList, "1".toList)], [("B".toList, "2".toList)]] eval_parse_AB⟩

/-- C7: no stored field value contains `'\r'`, and no stored field value ends
with a line terminator (its last character is neither `'\n'` nor `'\r'`):
each physical line's terminator is dropped, and `'\n'` appears only at
line-continuation joins. -/
theorem claim_C7 (l : List Char) (ps : List Paragraph)
    (h : parse_paragraphs l = Except.ok ps) :
    ∀ p ∈ ps, ∀ nv ∈ p, '\r' ∉ nv.2 ∧ nv.2.getLast? ≠ some '\n' ∧
      nv.2.getLast? ≠ some '\r' := by
  intro p hp nv hnv
  have hinv := (parse_paragraphs_inv l ps h p hp).1 nv hnv
  refine ⟨hinv.2.1, hinv.2.2, ?_⟩
  intro heq
  refine hinv.2.1 ?_
  rcases List.mem_getLast?_eq_getLast heq with ⟨hne, hxeq⟩
  rw [hxeq]
  exact List.getLast_mem hne

/-- C7 witness: applied to the concrete parse of `"Name: foo\n bar\n"`. -/
theorem claim_C7_witness :
    parse_paragraphs ("Name: foo\n bar\n".toList) =
      Except.ok [[("Name".toList, "foo\n bar".toList)]] ∧
    (∀ p ∈ [[("Name".toList, "foo\n bar".toList)]], ∀ nv ∈ p,
      '\r' ∉ nv.2 ∧ nv.2.getLast? ≠ some '\n' ∧ nv.2.getLast? ≠ some '\r') :=
  ⟨eval_parse_name, claim_C7 ("Name: foo\n bar\n".toList)
    [[("Name".toList, "foo\n bar".toList)]] eval_parse_name⟩

/-- C8: `parse_single_paragraph` succeeds with `p` exactly when the parsed
Document is `[p]`; on a Document with zero or several paragraphs it fails with
`ExpectedOnlyOneParagraph`.  Concretely: the empty text (zero paragraphs) and
`"A: 1\n\nB: 2\n"` (two paragraphs) fail with `ExpectedOnlyOneParagraph`, while
`"A: 1\n"` succeeds with its unique paragraph; `get_single_paragraph` (the
file-level wrapper) delegates to it on a successful read. -/
theorem claim_C8 :
    (∀ (l : List Char) (p : Paragraph),
      parse_single_paragraph l = Except.ok p ↔ parse_paragraphs l = Except.ok [p]) ∧
    (∀ (l : List Char) (ps : List Paragraph), parse_paragraphs l = Except.ok ps →
      ps.length ≠ 1 →
      parse_single_paragraph l = Except.error ParseError.ExpectedOnlyOneParagraph) ∧
    parse_single_paragraph ([] : List Char) =
      Except.error ParseError.ExpectedOnlyOneParagraph ∧
    parse_single_paragraph ("A: 1\n\nB: 2\n".toList) =
      Except.error ParseError.ExpectedOnlyOneParagraph ∧
    parse_single_paragraph ("A: 1\n".toList) = Except.ok [("A".toList, "1".toList)] ∧
    get_single_paragraph (Except.ok ("A: 1\n".toList) : Except Unit (List Char)) =
      Except.ok [("A".toList, "1".toList)] := by
  have h5 : parse_single_paragraph ("A: 1\n".toList) =
      Except.ok [("A".toList, "1".toList)] := by
    rw [parse_single_paragraph, eval_parse_A1]
  refine ⟨parse_single_iff, parse_single_not_one, ?_, ?_, h5, ?_⟩
  · exact parse_single_not_one [] [] eval_parse_empty (by simp)
  · exact parse_single_not_one _ _ eval_parse_AB (by simp)
  · rw [get_single_paragraph, h5]
    rfl

/-- C8 witness: the exactly-one-paragraph equivalence applied at the concrete
input `"A: 1\n"`. -/
theorem claim_C8_witness :
    parse_single_paragraph ("A: 1\n".toList) = Except.ok [("A".toList, "1".toList)] :=
  (claim_C8.1 ("A: 1\n".toList) [("A".toList, "1".toList)]).mpr eval_parse_A1

/-- C9: `extract_port_names_and_versions` maps each name to the version of the
first port in sequence order bearing that name; a later port with the same name
never overwrites the entry. -/
theorem claim_C9 (ports : List SourceParagraph) (n : String) :
    lookup_version (extract_port_names_and_versions ports) n =
      Option.map (fun p => p.version) (ports.find? (fun p => p.name = n)) := by
  rw [extract_port_names_and_versions, extract_loop_lookup]
  rw [show lookup_version [] n = none from rfl]
  rfl

section MalformedLemmas

theorem scan_fieldname_run (r : List Char) (c : Char) (rest : List Char)
    (hr : ∀ x ∈ r, (is_alphanum x || x = '-') = true)
    (hc : (is_alphanum c || c = '-') = false) :
    scan_fieldname (r ++ c :: rest) = (r, c :: rest) := by
  induction r with
  | nil =>
    rw [List.nil_append, scan_fieldname]
    simp [hc]
  | cons a r2 ih =>
    rw [List.cons_append, scan_fieldname, if_pos (hr a (by simp))]
    have := ih (fun x hx => hr x (by simp [hx]))
    rw [this]

theorem namechar_not_nul (a : Char) (h : (is_alphanum a || a = '-') = true) : ¬ a = nul := by
  intro ha
  subst ha
  revert h
  decide

theorem namechar_not_blank (a : Char) (h : (is_alphanum a || a = '-') = true) :
    (a = '\n' || a = '\r' || a = ' ' || a = '\t') = false := by
  cases hb : (a = '\n' || a = '\r' || a = ' ' || a = '\t') with
  | false => rfl
  | true =>
    exfalso
    simp only [Bool.or_eq_true, decide_eq_true_eq] at hb
    rcases hb with ((hb | hb) | hb) | hb <;> subst hb <;> revert h <;> decide

end MalformedLemmas

/-- C5: whenever a maximal field-name run (a non-empty block of
alphanumeric/`'-'` characters) is terminated by a character other than `':'`,
the whole parse fails with `MalformedFieldName`. -/
theorem claim_C5 (r : List Char) (c : Char) (rest : List Char)
    (hne : r ≠ [])
    (hr : ∀ x ∈ r, (is_alphanum x || x = '-') = true)
    (hc : (is_alphanum c || c = '-') = false)
    (hcolon : c ≠ ':') :
    parse_paragraphs (r ++ c :: rest) = Except.error ParseError.MalformedFieldName := by
  rcases r with _ | ⟨a, r2⟩
  · exact absurd rfl hne
  · have ha := hr a (by simp)
    have hfn : fieldname_ok ((a :: r2) ++ c :: rest) = false := by
      rw [fieldname_ok, scan_fieldname_run (a :: r2) c rest hr hc]
      simp [peekc, hcolon]
    rw [parse_paragraphs, get_paragraphs, List.cons_append,
      gps_step_err [] a (r2 ++ c :: rest) ParseError.MalformedFieldName
        (by simp [namechar_not_nul a ha]) (namechar_not_blank a ha)
        (by
          rw [get_paragraph, gp_step_badname]
          rw [← List.cons_append]
          exact hfn)]

/-- C5 witness: the concrete instance of the claim — `"A 1\n"` (name run `"A"`
terminated by `' '`) fails with `MalformedFieldName`. -/
theorem claim_C5_witness :
    ("A".toList ≠ [] ∧ (∀ x ∈ "A".toList, (is_alphanum x || x = '-') = true) ∧
      (is_alphanum ' ' || ' ' = '-') = false ∧ ' ' ≠ ':') ∧
    parse_paragraphs ("A 1\n".toList) = Except.error ParseError.MalformedFieldName :=
  ⟨⟨by decide, by decide, by decide, by decide⟩,
    claim_C5 "A".toList ' ' "1\n".toList (by decide) (by decide) (by decide) (by decide)⟩

section BoundaryLemmas

theorem scan_line_clean (v r : List Char) (hv : ∀ c ∈ v, is_lineend c = false) :
    scan_line (v ++ r) = (v ++ (scan_line r).1, (scan_line r).2) := by
  induction v with
  | nil => simp
  | cons a v2 ih =>
    rw [List.cons_append, scan_line, if_neg (by simp [hv a (by simp)])]
    have := ih (fun c hc => hv c (by simp [hc]))
    rw [this]
    simp

theorem skip_spaces_all (ws : List Char) (h : ∀ c ∈ ws, is_space c = true) :
    skip_spaces ws = [] := by
  induction ws with
  | nil => rfl
  | cons a ws2 ih =>
    rw [skip_spaces, if_pos (h a (by simp))]
    exact ih (fun c hc => h c (by simp [hc]))

theorem all_space_not_alphanum (ws : List Char) (h : ∀ c ∈ ws, is_space c = true) :
    is_alphanum (peekc ws) = false := by
  cases ws with
  | nil => decide
  | cons a ws2 =>
    have := h a (by simp)
    simp only [is_space, Bool.or_eq_true, decide_eq_true_eq] at this
    rcases this with ha | ha <;> subst ha <;> simp only [peekc] <;> decide

end BoundaryLemmas

section ContinuationLemmas

theorem skip_spaces_append_all (ws rest : List Char) (h : ∀ x ∈ ws, is_space x = true) :
    skip_spaces (ws ++ rest) = skip_spaces rest := by
  induction ws with
  | nil => rfl
  | cons a ws2 ih =>
    rw [List.cons_append, skip_spaces, if_pos (h a (by simp))]
    exact ih (fun x hx => h x (by simp [hx]))

theorem fieldvalue_continuation_step (acc v ws : List Char) (c : Char) (rest : List Char)
    (hv : ∀ x ∈ v, is_lineend x = false)
    (hws : ∀ x ∈ ws, is_space x = true)
    (hna : ws = [] → is_alphanum c = false)
    (hcs : is_space c = false) (hcl : is_lineend c = false) :
    get_fieldvalue_loop acc (v ++ '\n' :: (ws ++ c :: rest)) =
      get_fieldvalue_loop (acc ++ v ++ ['\n']) (ws ++ c :: rest) := by
  have hnl : scan_line ('\n' :: (ws ++ c :: rest)) = ([], '\n' :: (ws ++ c :: rest)) := by
    rw [scan_line, if_pos (by decide)]
  have hscan : scan_line (v ++ '\n' :: (ws ++ c :: rest)) =
      (v, '\n' :: (ws ++ c :: rest)) := by
    rw [scan_line_clean v _ hv, hnl]
    simp
  have hdrop : drop_crlf ('\n' :: (ws ++ c :: rest)) = ws ++ c :: rest := by
    simp [drop_crlf, peekc]
  have hskip : skip_spaces (ws ++ c :: rest) = c :: rest := by
    rw [skip_spaces_append_all ws _ hws, skip_spaces, if_neg (by simp [hcs])]
  have hpeek_alpha : is_alphanum (peekc (ws ++ c :: rest)) = false := by
    cases ws with
    | nil => simpa [peekc] using hna rfl
    | cons a ws2 =>
      have ha := hws a (by simp)
      simp only [is_space, Bool.or_eq_true, decide_eq_true_eq] at ha
      rcases ha with ha | ha <;> subst ha <;> simp only [List.cons_append, peekc] <;> decide
  rw [get_fieldvalue_loop, hscan]
  simp only
  rw [hdrop, if_neg (by simp [hpeek_alpha]),
    dif_neg (by rw [hskip]; simp [peekc, hcl])]

theorem fieldvalue_final_line (acc v ws : List Char)
    (hv : ∀ x ∈ v, is_lineend x = false)
    (hws : ∀ x ∈ ws, is_space x = true) :
    get_fieldvalue_loop acc (v ++ '\n' :: ws) = (acc ++ v, []) := by
  have hnl : scan_line ('\n' :: ws) = ([], '\n' :: ws) := by
    rw [scan_line, if_pos (by decide)]
  have hscan : scan_line (v ++ '\n' :: ws) = (v, '\n' :: ws) := by
    rw [scan_line_clean v _ hv, hnl]
    simp
  have hdrop : drop_crlf ('\n' :: ws) = ws := by
    simp [drop_crlf, peekc]
  rw [get_fieldvalue_loop, hscan]
  simp only
  rw [hdrop, if_neg (by simp [all_space_not_alphanum ws hws]),
    dif_pos (by rw [skip_spaces_all ws hws]; decide)]
  rw [skip_spaces_all ws hws]

theorem fieldvalue_two_lines (v ws : List Char) (c : Char) (w : List Char)
    (hv : ∀ x ∈ v, is_lineend x = false)
    (hws : ∀ x ∈ ws, is_space x = true)
    (hna : ws = [] → is_alphanum c = false)
    (hcs : is_space c = false) (hcl : is_lineend c = false)
    (hw : ∀ x ∈ w, is_lineend x = false) :
    get_fieldvalue (v ++ '\n' :: (ws ++ c :: (w ++ ['\n']))) =
      (v ++ '\n' :: (ws ++ c :: w), []) := by
  rw [get_fieldvalue,
    fieldvalue_continuation_step [] v ws c (w ++ ['\n']) hv hws hna hcs hcl]
  have hu : ∀ x ∈ ws ++ c :: w, is_lineend x = false := by
    intro x hx
    rcases List.mem_append.mp hx with hm | hm
    · have := hws x hm
      simp only [is_space, Bool.or_eq_true, decide_eq_true_eq] at this
      rcases this with h | h <;> subst h <;> decide
    · rcases List.mem_cons.mp hm with rfl | hm2
      · exact hcl
      · exact hw x hm2
  rw [show ws ++ c :: (w ++ ['\n']) = (ws ++ c :: w) ++ '\n' :: [] from by simp]
  rw [fieldvalue_final_line ([] ++ v ++ ['\n']) (ws ++ c :: w) [] hu (by simp)]
  simp

end ContinuationLemmas

/-- C1: a field value spanning several physical lines joins them with a single
`'\n'`, the first physical line of the value carries no leading whitespace (the
post-colon horizontal whitespace is consumed by `get_fieldname`, so the value
starts at the first line's content `v`, kept as-is), and each continuation line
keeps its own leading horizontal whitespace verbatim.  First conjunct — the
universal continuation step: for any buffered value `acc`, current line content
`v`, continuation-line leading horizontal whitespace `ws` and first non-space
character `c` (not a line end, and not alphanumeric when `ws` is empty — a line
starting alphanumeric would begin a new field), the loop appends `v`, pushes
exactly one `'\n'`, and restarts at the un-skipped line start `ws ++ c :: rest`,
so `ws` is captured verbatim by the next line scan.  Second conjunct — the
end-to-end two-physical-line value: it evaluates to
`v ++ '\n' :: (ws ++ c :: w)`, with the single join and `ws` retained.  Last
conjuncts: the claim's concrete instance `"Name: foo\n bar\n"` (and a variant
with wider whitespace on both sides). -/
theorem claim_C1 :
    (∀ (acc v ws : List Char) (c : Char) (rest : List Char),
      (∀ x ∈ v, is_lineend x = false) → (∀ x ∈ ws, is_space x = true) →
      (ws = [] → is_alphanum c = false) → is_space c = false → is_lineend c = false →
      get_fieldvalue_loop acc (v ++ '\n' :: (ws ++ c :: rest)) =
        get_fieldvalue_loop (acc ++ v ++ ['\n']) (ws ++ c :: rest)) ∧
    (∀ (v ws : List Char) (c : Char) (w : List Char),
      (∀ x ∈ v, is_lineend x = false) → (∀ x ∈ ws, is_space x = true) →
      (ws = [] → is_alphanum c = false) → is_space c = false → is_lineend c = false →
      (∀ x ∈ w, is_lineend x = false) →
      get_fieldvalue (v ++ '\n' :: (ws ++ c :: (w ++ ['\n']))) =
        (v ++ '\n' :: (ws ++ c :: w), [])) ∧
    parse_paragraphs ("Name: foo\n bar\n".toList) =
      Except.ok [[("Name".toList, "foo\n bar".toList)]] ∧
    parse_paragraphs ("Name:   foo\n   bar\n".toList) =
      Except.ok [[("Name".toList, "foo\n   bar".toList)]] :=
  ⟨fieldvalue_continuation_step, fieldvalue_two_lines, eval_parse_name, eval_parse_name2⟩

/-- C1 witness: the end-to-end two-line conjunct applied at the claim's own
value — first line `"foo"`, continuation whitespace `" "`, continuation content
`'b' :: "ar"` — yielding the joined value `"foo\n bar"`. -/
theorem claim_C1_witness :
    ((∀ x ∈ "foo".toList, is_lineend x = false) ∧ (∀ x ∈ " ".toList, is_space x = true) ∧
      (" ".toList = [] → is_alphanum 'b' = false) ∧ is_space 'b' = false ∧
      is_lineend 'b' = false ∧ (∀ x ∈ "ar".toList, is_lineend x = false)) ∧
    get_fieldvalue ("foo".toList ++ '\n' :: (" ".toList ++ 'b' :: ("ar".toList ++ ['\n']))) =
      ("foo".toList ++ '\n' :: (" ".toList ++ 'b' :: "ar".toList), []) :=
  ⟨⟨by decide, by decide, by decide, by decide, by decide, by decide⟩,
    claim_C1.2.1 "foo".toList " ".toList 'b' "ar".toList (by decide) (by decide) (by decide)
      (by decide) (by decide) (by decide)⟩


/-- C2: parsing is total — every input yields either a complete Document or a
single error, never a partial result (termination itself is established by the
well-founded recursions defining the parser, each outer iteration consuming at
least one character).  The boundary case singled out by the claim holds: when a
continuation-candidate line consists only of horizontal whitespace immediately
followed by end-of-input with no terminator, the value loop classifies it as a
blank line and stops, leaving the cursor at end-of-input; concretely,
`"A: x\n \t"` parses to `{A ↦ "x"}`. -/
theorem claim_C2 :
    (∀ l : List Char, (∃ ps, parse_paragraphs l = Except.ok ps) ∨
      (∃ e, parse_paragraphs l = Except.error e)) ∧
    (∀ (acc v ws : List Char), (∀ c ∈ v, is_lineend c = false) →
      (∀ c ∈ ws, is_space c = true) →
      get_fieldvalue_loop acc (v ++ '\n' :: ws) = (acc ++ v, [])) ∧
    parse_paragraphs ("A: x\n \t".toList) = Except.ok [[("A".toList, "x".toList)]] := by
  refine ⟨?_, ?_, eval_parse_wsend⟩
  · intro l
    cases h : parse_paragraphs l with
    | ok ps => exact Or.inl ⟨ps, rfl⟩
    | error e => exact Or.inr ⟨e, rfl⟩
  · intro acc v ws hv hws
    have hnl : scan_line ('\n' :: ws) = ([], '\n' :: ws) := by
      rw [scan_line]
      simp [is_lineend]
    have hscan : scan_line (v ++ '\n' :: ws) = (v, '\n' :: ws) := by
      rw [scan_line_clean v _ hv, hnl]
      simp
    have hdrop : drop_crlf ('\n' :: ws) = ws := by
      simp [drop_crlf, peekc]
    rw [get_fieldvalue_loop, hscan]
    simp only
    rw [hdrop, if_neg (by simp [all_space_not_alphanum ws hws]),
      dif_pos (by rw [skip_spaces_all ws hws]; decide)]
    rw [skip_spaces_all ws hws]

/-- C2 witness: the whitespace-then-end-of-input boundary lemma applied at a
concrete value line and trailing whitespace. -/
theorem claim_C2_witness :
    ((∀ c ∈ "x".toList, is_lineend c = false) ∧ (∀ c ∈ " \t".toList, is_space c = true)) ∧
    get_fieldvalue_loop [] ("x".toList ++ '\n' :: " \t".toList) = ([] ++ "x".toList, []) :=
  ⟨⟨by decide, by decide⟩, claim_C2.2.1 [] "x".toList " \t".toList (by decide) (by decide)⟩

section NulTruncation

theorem nul_peekc (core t : List Char) : peekc (core ++ nul :: t) = peekc core := by
  cases core <;> rfl

theorem nul_skip_spaces (core t : List Char) :
    skip_spaces (core ++ nul :: t) = skip_spaces core ++ nul :: t := by
  induction core with
  | nil =>
    rw [List.nil_append, skip_spaces_of_lineend (nul :: t) (by simp only [peekc]; decide)]
    rfl
  | cons a core2 ih =>
    rw [List.cons_append, skip_spaces, skip_spaces]
    split
    · exact ih
    · rw [List.cons_append]

theorem nul_scan_line (core t : List Char) :
    scan_line (core ++ nul :: t) = ((scan_line core).1, (scan_line core).2 ++ nul :: t) := by
  induction core with
  | nil =>
    rw [List.nil_append]
    have h1 : scan_line (nul :: t) = ([], nul :: t) := by
      rw [scan_line, if_pos (by decide)]
    rw [h1]
    rfl
  | cons a core2 ih =>
    rw [List.cons_append, scan_line, scan_line]
    split
    · rw [List.cons_append]
    · rw [ih]

theorem nul_drop_crlf (core t : List Char) :
    drop_crlf (core ++ nul :: t) = drop_crlf core ++ nul :: t := by
  rcases core with _ | ⟨a, u⟩
  · rw [List.nil_append, drop_crlf, drop_crlf]
    rw [show peekc (nul :: t) = nul from rfl, show peekc ([] : List Char) = nul from rfl]
    rw [if_neg (by decide), if_neg (by decide), if_neg (by decide), if_neg (by decide)]
    rfl
  · rw [List.cons_append, drop_crlf, drop_crlf]
    rw [show peekc (a :: (u ++ nul :: t)) = a from rfl, show peekc (a :: u) = a from rfl]
    by_cases ha : a = '\r'
    · rw [if_pos ha, if_pos ha]
      rw [List.tail_cons, List.tail_cons, nul_peekc]
      by_cases hu : peekc u = '\n'
      · rw [if_pos hu, if_pos hu]
        rcases u with _ | ⟨b, v⟩
        · rw [show peekc ([] : List Char) = nul from rfl] at hu
          exact absurd hu (by decide)
        · rfl
      · rw [if_neg hu, if_neg hu]
    · rw [if_neg ha, if_neg ha]
      by_cases hn : a = '\n'
      · rw [if_pos hn, if_pos hn, List.tail_cons, List.tail_cons]
      · rw [if_neg hn, if_neg hn, List.cons_append]

theorem nul_scan_fieldname (core t : List Char) :
    scan_fieldname (core ++ nul :: t) =
      ((scan_fieldname core).1, (scan_fieldname core).2 ++ nul :: t) := by
  induction core with
  | nil =>
    rw [List.nil_append]
    have h1 : scan_fieldname (nul :: t) = ([], nul :: t) := by
      rw [scan_fieldname, if_neg (by decide)]
    rw [h1]
    rfl
  | cons a core2 ih =>
    rw [List.cons_append, scan_fieldname, scan_fieldname]
    split
    · rw [ih]
    · rw [List.cons_append]

theorem nul_fieldname_ok (core t : List Char) :
    fieldname_ok (core ++ nul :: t) = fieldname_ok core := by
  rw [fieldname_ok, fieldname_ok, nul_scan_fieldname]
  rw [show ((scan_fieldname core).1, (scan_fieldname core).2 ++ nul :: t).2 =
    (scan_fieldname core).2 ++ nul :: t from rfl]
  rw [nul_peekc]

theorem nul_fieldname_of (core t : List Char) :
    fieldname_of (core ++ nul :: t) = fieldname_of core := by
  rw [fieldname_of, fieldname_of, nul_scan_fieldname]

theorem nul_after_fieldname (core t : List Char) (h : fieldname_ok core = true) :
    after_fieldname (core ++ nul :: t) = after_fieldname core ++ nul :: t := by
  rw [after_fieldname, after_fieldname, nul_scan_fieldname]
  rw [show ((scan_fieldname core).1, (scan_fieldname core).2 ++ nul :: t).2 =
    (scan_fieldname core).2 ++ nul :: t from rfl]
  rcases hr : (scan_fieldname core).2 with _ | ⟨x, u⟩
  · rw [fieldname_ok, hr] at h
    rw [show peekc ([] : List Char) = nul from rfl] at h
    exact absurd h (by decide)
  · rw [List.cons_append, List.tail_cons, List.tail_cons, nul_skip_spaces]

theorem nul_get_fieldvalue_loop (acc core t : List Char) :
    get_fieldvalue_loop acc (core ++ nul :: t) =
      ((get_fieldvalue_loop acc core).1, (get_fieldvalue_loop acc core).2 ++ nul :: t) := by
  induction acc, core using get_fieldvalue_loop.induct with
  | case1 acc core h1 =>
    conv_lhs => rw [get_fieldvalue_loop]
    rw [nul_scan_line]
    simp only
    rw [nul_drop_crlf, nul_peekc, if_pos h1]
    rw [get_fieldvalue_loop, if_pos h1]
  | case2 acc core h1 h2 =>
    conv_lhs => rw [get_fieldvalue_loop]
    rw [nul_scan_line]
    simp only
    rw [nul_drop_crlf, nul_peekc, nul_skip_spaces, nul_peekc, if_neg h1, dif_pos h2]
    rw [get_fieldvalue_loop, if_neg h1, dif_pos h2]
  | case3 acc core h1 h2 ih =>
    conv_lhs => rw [get_fieldvalue_loop]
    rw [nul_scan_line]
    simp only
    rw [nul_drop_crlf, nul_peekc, nul_skip_spaces, nul_peekc, if_neg h1, dif_neg h2]
    conv_rhs => rw [get_fieldvalue_loop, if_neg h1, dif_neg h2]
    exact ih

theorem nul_get_fieldvalue (core t : List Char) :
    get_fieldvalue (core ++ nul :: t) =
      ((get_fieldvalue core).1, (get_fieldvalue core).2 ++ nul :: t) := by
  rw [get_fieldvalue, get_fieldvalue, nul_get_fieldvalue_loop]

theorem nul_get_paragraph_loop (fields : List (List Char × List Char)) (core t : List Char) :
    get_paragraph_loop fields (core ++ nul :: t) =
      Except.map (fun pr => (pr.1, pr.2 ++ nul :: t)) (get_paragraph_loop fields core) := by
  induction fields, core using get_paragraph_loop.induct with
  | case1 fields core h1 =>
    rw [gp_step_badname fields core h1,
      gp_step_badname fields _ (by rw [nul_fieldname_ok]; exact h1)]
    rfl
  | case2 fields core h1 h2 =>
    have h1' : fieldname_ok core = true := by
      revert h1; cases fieldname_ok core <;> simp
    rw [gp_step_dup fields core h1' h2,
      gp_step_dup fields _ (by rw [nul_fieldname_ok]; exact h1')
        (by rw [nul_fieldname_of]; exact h2)]
    rfl
  | case3 fields core h1 h2 h3 =>
    have h1' : fieldname_ok core = true := by
      revert h1; cases fieldname_ok core <;> simp
    have h2' : fields.any (fun f => f.1 = fieldname_of core) = false := by
      revert h2; cases fields.any (fun f => f.1 = fieldname_of core) <;> simp
    have h3' : is_lineend (peekc (get_fieldvalue (after_fieldname (core ++ nul :: t))).2) =
        true := by
      rw [nul_after_fieldname core t h1', nul_get_fieldvalue]
      simp only
      rw [nul_peekc]
      exact h3
    rw [gp_step_done fields core h1' h2' h3,
      gp_step_done fields _ (by rw [nul_fieldname_ok]; exact h1')
        (by rw [nul_fieldname_of]; exact h2') h3']
    rw [nul_after_fieldname core t h1', nul_get_fieldvalue, nul_fieldname_of]
    rfl
  | case4 fields core h1 h2 h3 ih =>
    have h1' : fieldname_ok core = true := by
      revert h1; cases fieldname_ok core <;> simp
    have h2' : fields.any (fun f => f.1 = fieldname_of core) = false := by
      revert h2; cases fields.any (fun f => f.1 = fieldname_of core) <;> simp
    have h3' : is_lineend (peekc (get_fieldvalue (after_fieldname core)).2) = false := by
      revert h3; cases is_lineend (peekc (get_fieldvalue (after_fieldname core)).2) <;> simp
    have h3n : is_lineend (peekc (get_fieldvalue (after_fieldname (core ++ nul :: t))).2) =
        false := by
      rw [nul_after_fieldname core t h1', nul_get_fieldvalue]
      simp only
      rw [nul_peekc]
      exact h3'
    rw [gp_step_cont fields core h1' h2' h3',
      gp_step_cont fields _ (by rw [nul_fieldname_ok]; exact h1')
        (by rw [nul_fieldname_of]; exact h2') h3n]
    rw [nul_after_fieldname core t h1', nul_get_fieldvalue, nul_fieldname_of]
    exact ih

theorem nul_get_paragraphs_loop (acc : List Paragraph) (core t : List Char) :
    get_paragraphs_loop acc (core ++ nul :: t) = get_paragraphs_loop acc core := by
  induction acc, core using get_paragraphs_loop.induct with
  | case1 acc =>
    rw [List.nil_append, gps_step_nul acc nul t rfl, gps_step_nil]
  | case2 acc rest =>
    rw [List.cons_append, gps_step_nul acc nul _ rfl, gps_step_nul acc nul rest rfl]
  | case3 acc c rest h0 h1 ih =>
    rw [List.cons_append, gps_step_blank acc c _ (by simp [h0]) h1,
      gps_step_blank acc c rest (by simp [h0]) h1]
    exact ih
  | case4 acc c rest h0 h1 e he =>
    have h1' : (c = '\n' || c = '\r' || c = ' ' || c = '\t') = false := by
      revert h1; cases (c = '\n' || c = '\r' || c = ' ' || c = '\t') <;> simp
    have hlift : get_paragraph ((c :: rest) ++ nul :: t) = Except.error e := by
      rw [get_paragraph, nul_get_paragraph_loop]
      rw [show get_paragraph_loop [] (c :: rest) = Except.error e from by
        rw [← get_paragraph]; exact he]
      rfl
    rw [List.cons_append,
      gps_step_err acc c _ e (by simp [h0]) h1' (by rw [← List.cons_append]; exact hlift),
      gps_step_err acc c rest e (by simp [h0]) h1' he]
  | case5 acc c rest h0 h1 pr hpr ih =>
    have h1' : (c = '\n' || c = '\r' || c = ' ' || c = '\t') = false := by
      revert h1; cases (c = '\n' || c = '\r' || c = ' ' || c = '\t') <;> simp
    have hlift : get_paragraph ((c :: rest) ++ nul :: t) =
        Except.ok (pr.1, pr.2 ++ nul :: t) := by
      rw [get_paragraph, nul_get_paragraph_loop]
      rw [show get_paragraph_loop [] (c :: rest) = Except.ok pr from by
        rw [← get_paragraph]; exact hpr]
      rfl
    rw [List.cons_append,
      gps_step_ok acc c _ pr.1 (pr.2 ++ nul :: t) (by simp [h0]) h1'
        (by rw [← List.cons_append]; exact hlift),
      gps_step_ok acc c rest pr.1 pr.2 (by simp [h0]) h1' (by simpa using hpr)]
    exact ih

end NulTruncation

/-- C10: a NUL character acts as end-of-input — everything after it is ignored,
and parsing an input with a NUL returns exactly the paragraphs parsed from the
prefix before the first NUL.  Concretely, `"A: 1\n" ++ NUL ++ "B: 2\ngarbage"`
parses to just `{A ↦ "1"}`. -/
theorem claim_C10 :
    (∀ s t : List Char, parse_paragraphs (s ++ nul :: t) = parse_paragraphs s) ∧
    parse_paragraphs ("A: 1\n".toList ++ nul :: "B: 2\ngarbage".toList) =
      Except.ok [[("A".toList, "1".toList)]] := by
  have hgen : ∀ s t : List Char, parse_paragraphs (s ++ nul :: t) = parse_paragraphs s := by
    intro s t
    rw [parse_paragraphs, parse_paragraphs, get_paragraphs, get_paragraphs,
      nul_get_paragraphs_loop]
  exact ⟨hgen, by rw [hgen, eval_parse_A1]⟩

section MembershipTransfer

theorem mem_scan_line_snd (l : List Char) (x : Char) (h : x ∈ (scan_line l).2) : x ∈ l := by
  rw [← scan_line_append l]
  exact List.mem_append_right _ h

theorem mem_scan_fieldname_snd (l : List Char) (x : Char)
    (h : x ∈ (scan_fieldname l).2) : x ∈ l := by
  rw [← scan_fieldname_append l]
  exact List.mem_append_right _ h

theorem mem_skip_spaces (l : List Char) (x : Char) (h : x ∈ skip_spaces l) : x ∈ l := by
  induction l with
  | nil => simpa [skip_spaces] using h
  | cons c rest ih =>
    rw [skip_spaces] at h
    revert h
    split
    · intro h
      exact List.mem_cons_of_mem c (ih h)
    · intro h
      exact h

theorem mem_drop_crlf (l : List Char) (x : Char) (h : x ∈ drop_crlf l) : x ∈ l := by
  rw [drop_crlf] at h
  revert h
  split
  · split
    · intro h
      exact List.mem_of_mem_tail (List.mem_of_mem_tail h)
    · intro h
      exact List.mem_of_mem_tail h
  · split
    · intro h
      exact List.mem_of_mem_tail h
    · intro h
      exact h

theorem mem_after_fieldname (l : List Char) (x : Char) (h : x ∈ after_fieldname l) : x ∈ l := by
  rw [after_fieldname] at h
  exact mem_scan_fieldname_snd l x (List.mem_of_mem_tail (mem_skip_spaces _ x h))

theorem mem_get_fieldvalue_loop_snd (acc l : List Char) (x : Char)
    (h : x ∈ (get_fieldvalue_loop acc l).2) : x ∈ l := by
  induction acc, l using get_fieldvalue_loop.induct with
  | case1 acc l h1 =>
    rw [get_fieldvalue_loop, if_pos h1] at h
    exact mem_scan_line_snd l x (mem_drop_crlf _ x h)
  | case2 acc l h1 h2 =>
    rw [get_fieldvalue_loop, if_neg h1, dif_pos h2] at h
    exact mem_scan_line_snd l x (mem_drop_crlf _ x (mem_skip_spaces _ x h))
  | case3 acc l h1 h2 ih =>
    rw [get_fieldvalue_loop, if_neg h1, dif_neg h2] at h
    exact mem_scan_line_snd l x (mem_drop_crlf _ x (ih h))

theorem mem_get_paragraph_loop_snd (fields : List (List Char × List Char)) (l : List Char)
    (pr : List (List Char × List Char) × List Char) (x : Char)
    (hok : get_paragraph_loop fields l = Except.ok pr) (h : x ∈ pr.2) : x ∈ l := by
  induction fields, l using get_paragraph_loop.induct with
  | case1 fields l h1 =>
    rw [gp_step_badname fields l h1] at hok
    cases hok
  | case2 fields l h1 h2 =>
    have h1' : fieldname_ok l = true := by
      revert h1; cases fieldname_ok l <;> simp
    rw [gp_step_dup fields l h1' h2] at hok
    cases hok
  | case3 fields l h1 h2 h3 =>
    have h1' : fieldname_ok l = true := by
      revert h1; cases fieldname_ok l <;> simp
    have h2' : fields.any (fun f => f.1 = fieldname_of l) = false := by
      revert h2; cases fields.any (fun f => f.1 = fieldname_of l) <;> simp
    rw [gp_step_done fields l h1' h2' h3] at hok
    simp only [Except.ok.injEq] at hok
    subst hok
    simp only at h
    rw [get_fieldvalue] at h
    exact mem_after_fieldname l x (mem_get_fieldvalue_loop_snd [] _ x h)
  | case4 fields l h1 h2 h3 ih =>
    have h1' : fieldname_ok l = true := by
      revert h1; cases fieldname_ok l <;> simp
    have h2' : fields.any (fun f => f.1 = fieldname_of l) = false := by
      revert h2; cases fields.any (fun f => f.1 = fieldname_of l) <;> simp
    have h3' : is_lineend (peekc (get_fieldvalue (after_fieldname l)).2) = false := by
      revert h3; cases is_lineend (peekc (get_fieldvalue (after_fieldname l)).2) <;> simp
    rw [gp_step_cont fields l h1' h2' h3'] at hok
    have := ih hok
    rw [get_fieldvalue] at this
    exact mem_after_fieldname l x (mem_get_fieldvalue_loop_snd [] _ x this)

end MembershipTransfer

section CrlfCommutation

theorem ex_peekc_alphanum (l : List Char) :
    is_alphanum (peekc (crlf_expand l)) = is_alphanum (peekc l) := by
  cases l with
  | nil => rfl
  | cons c rest =>
    rw [crlf_expand]
    by_cases hc : c = '\n'
    · subst hc
      rw [if_pos rfl]
      rfl
    · rw [if_neg hc]
      rfl

theorem ex_peekc_lineend (l : List Char) :
    is_lineend (peekc (crlf_expand l)) = is_lineend (peekc l) := by
  cases l with
  | nil => rfl
  | cons c rest =>
    rw [crlf_expand]
    by_cases hc : c = '\n'
    · subst hc
      rw [if_pos rfl]
      rfl
    · rw [if_neg hc]
      rfl

theorem ex_peekc_colon (l : List Char) :
    (decide (peekc (crlf_expand l) = ':')) = (decide (peekc l = ':')) := by
  cases l with
  | nil => rfl
  | cons c rest =>
    rw [crlf_expand]
    by_cases hc : c = '\n'
    · subst hc
      rw [if_pos rfl]
      rfl
    · rw [if_neg hc]
      rfl

theorem ex_skip_spaces (l : List Char) (hr : '\r' ∉ l) :
    skip_spaces (crlf_expand l) = crlf_expand (skip_spaces l) := by
  induction l with
  | nil => rfl
  | cons c rest ih =>
    rw [crlf_expand]
    by_cases hc : c = '\n'
    · subst hc
      rw [if_pos rfl, skip_spaces, if_neg (by decide), skip_spaces, if_neg (by decide),
        crlf_expand, if_pos rfl]
    · rw [if_neg hc, skip_spaces, skip_spaces]
      by_cases hs : is_space c = true
      · rw [if_pos hs, if_pos hs]
        exact ih (fun hm => hr (List.mem_cons_of_mem c hm))
      · rw [if_neg hs, if_neg hs, crlf_expand, if_neg hc]

theorem ex_scan_line (l : List Char) (hr : '\r' ∉ l) :
    scan_line (crlf_expand l) = ((scan_line l).1, crlf_expand (scan_line l).2) := by
  induction l with
  | nil => rfl
  | cons c rest ih =>
    rw [crlf_expand]
    by_cases hc : c = '\n'
    · subst hc
      rw [if_pos rfl, scan_line, if_pos (by decide), scan_line, if_pos (by decide),
        crlf_expand, if_pos rfl]
    · rw [if_neg hc, scan_line, scan_line]
      by_cases hl : is_lineend c = true
      · rw [if_pos hl, if_pos hl]
        rw [show crlf_expand (c :: rest) = c :: crlf_expand rest from by
          rw [crlf_expand, if_neg hc]]
      · rw [if_neg hl, if_neg hl]
        rw [ih (fun hm => hr (List.mem_cons_of_mem c hm))]

theorem ex_drop_crlf (l : List Char) (hr : '\r' ∉ l) (hle : is_lineend (peekc l) = true) :
    drop_crlf (crlf_expand l) = crlf_expand (drop_crlf l) := by
  cases l with
  | nil => rfl
  | cons c rest =>
    simp only [peekc, is_lineend, Bool.or_eq_true, decide_eq_true_eq] at hle
    rcases hle with (hc | hc) | hc
    · exact absurd (hc ▸ List.mem_cons_self c rest) hr
    · subst hc
      rw [crlf_expand, if_pos rfl, drop_crlf]
      rw [show peekc ('\r' :: '\n' :: crlf_expand rest) = '\r' from rfl, if_pos rfl,
        List.tail_cons]
      rw [show peekc ('\n' :: crlf_expand rest) = '\n' from rfl, if_pos rfl, List.tail_cons]
      rw [drop_crlf]
      rw [show peekc ('\n' :: rest) = '\n' from rfl, if_neg (by decide), if_pos rfl,
        List.tail_cons]
    · subst hc
      rw [crlf_expand, if_neg (by decide), drop_crlf]
      rw [show peekc (nul :: crlf_expand rest) = nul from rfl, if_neg (by decide),
        if_neg (by decide)]
      rw [drop_crlf]
      rw [show peekc (nul :: rest) = nul from rfl, if_neg (by decide), if_neg (by decide)]
      rw [crlf_expand, if_neg (by decide)]

theorem ex_scan_fieldname (l : List Char) (hr : '\r' ∉ l) :
    scan_fieldname (crlf_expand l) =
      ((scan_fieldname l).1, crlf_expand (scan_fieldname l).2) := by
  induction l with
  | nil => rfl
  | cons c rest ih =>
    rw [crlf_expand]
    by_cases hc : c = '\n'
    · subst hc
      rw [if_pos rfl, scan_fieldname, if_neg (by decide), scan_fieldname, if_neg (by decide),
        crlf_expand, if_pos rfl]
    · rw [if_neg hc, scan_fieldname, scan_fieldname]
      by_cases hn : (is_alphanum c || c = '-') = true
      · rw [if_pos hn, if_pos hn]
        rw [ih (fun hm => hr (List.mem_cons_of_mem c hm))]
      · rw [if_neg hn, if_neg hn]
        rw [show crlf_expand (c :: rest) = c :: crlf_expand rest from by
          rw [crlf_expand, if_neg hc]]

theorem ex_fieldname_ok (l : List Char) (hr : '\r' ∉ l) :
    fieldname_ok (crlf_expand l) = fieldname_ok l := by
  rw [fieldname_ok, fieldname_ok, ex_scan_fieldname l hr]
  exact ex_peekc_colon (scan_fieldname l).2

theorem ex_fieldname_of (l : List Char) (hr : '\r' ∉ l) :
    fieldname_of (crlf_expand l) = fieldname_of l := by
  rw [fieldname_of, fieldname_of, ex_scan_fieldname l hr]

theorem ex_after_fieldname (l : List Char) (hr : '\r' ∉ l) (hok : fieldname_ok l = true) :
    after_fieldname (crlf_expand l) = crlf_expand (after_fieldname l) := by
  rw [after_fieldname, after_fieldname, ex_scan_fieldname l hr]
  rcases hu : (scan_fieldname l).2 with _ | ⟨x, u⟩
  · rw [fieldname_ok, hu] at hok
    exact absurd hok (by decide)
  · have hx : x = ':' := by
      rw [fieldname_ok, hu] at hok
      simpa [peekc] using hok
    subst hx
    rw [show crlf_expand (':' :: u) = ':' :: crlf_expand u from by
      rw [crlf_expand, if_neg (by decide)]]
    rw [List.tail_cons, List.tail_cons]
    refine ex_skip_spaces u ?_
    intro hm
    exact hr (mem_scan_fieldname_snd l '\r' (by rw [hu]; exact List.mem_cons_of_mem _ hm))

theorem ex_get_fieldvalue_loop (acc l : List Char) (hr : '\r' ∉ l) :
    get_fieldvalue_loop acc (crlf_expand l) =
      ((get_fieldvalue_loop acc l).1, crlf_expand (get_fieldvalue_loop acc l).2) := by
  induction acc, l using get_fieldvalue_loop.induct with
  | case1 acc l h1 =>
    have hr2 : '\r' ∉ (scan_line l).2 := fun hm => hr (mem_scan_line_snd l _ hm)
    conv_lhs => rw [get_fieldvalue_loop]
    rw [ex_scan_line l hr]
    simp only
    rw [ex_drop_crlf _ hr2 (scan_line_lineend l), ex_peekc_alphanum, if_pos h1]
    rw [get_fieldvalue_loop, if_pos h1]
  | case2 acc l h1 h2 =>
    have hr2 : '\r' ∉ (scan_line l).2 := fun hm => hr (mem_scan_line_snd l _ hm)
    have hr3 : '\r' ∉ drop_crlf (scan_line l).2 := fun hm => hr2 (mem_drop_crlf _ _ hm)
    conv_lhs => rw [get_fieldvalue_loop]
    rw [ex_scan_line l hr]
    simp only
    rw [ex_drop_crlf _ hr2 (scan_line_lineend l), ex_peekc_alphanum,
      ex_skip_spaces _ hr3, ex_peekc_lineend, if_neg h1, dif_pos h2]
    rw [get_fieldvalue_loop, if_neg h1, dif_pos h2]
  | case3 acc l h1 h2 ih =>
    have hr2 : '\r' ∉ (scan_line l).2 := fun hm => hr (mem_scan_line_snd l _ hm)
    have hr3 : '\r' ∉ drop_crlf (scan_line l).2 := fun hm => hr2 (mem_drop_crlf _ _ hm)
    conv_lhs => rw [get_fieldvalue_loop]
    rw [ex_scan_line l hr]
    simp only
    rw [ex_drop_crlf _ hr2 (scan_line_lineend l), ex_peekc_alphanum,
      ex_skip_spaces _ hr3, ex_peekc_lineend, if_neg h1, dif_neg h2]
    conv_rhs => rw [get_fieldvalue_loop, if_neg h1, dif_neg h2]
    exact ih hr3

end CrlfCommutation

section CrlfParagraphs

theorem ex_get_fieldvalue (l : List Char) (hr : '\r' ∉ l) :
    get_fieldvalue (crlf_expand l) =
      ((get_fieldvalue l).1, crlf_expand (get_fieldvalue l).2) := by
  rw [get_fieldvalue, get_fieldvalue, ex_get_fieldvalue_loop [] l hr]

theorem ex_get_paragraph_loop (fields : List (List Char × List Char)) (l : List Char)
    (hr : '\r' ∉ l) :
    get_paragraph_loop fields (crlf_expand l) =
      Except.map (fun pr => (pr.1, crlf_expand pr.2)) (get_paragraph_loop fields l) := by
  induction fields, l using get_paragraph_loop.induct with
  | case1 fields l h1 =>
    rw [gp_step_badname fields l h1,
      gp_step_badname fields _ (by rw [ex_fieldname_ok l hr]; exact h1)]
    rfl
  | case2 fields l h1 h2 =>
    have h1' : fieldname_ok l = true := by
      revert h1; cases fieldname_ok l <;> simp
    rw [gp_step_dup fields l h1' h2,
      gp_step_dup fields _ (by rw [ex_fieldname_ok l hr]; exact h1')
        (by rw [ex_fieldname_of l hr]; exact h2)]
    rfl
  | case3 fields l h1 h2 h3 =>
    have h1' : fieldname_ok l = true := by
      revert h1; cases fieldname_ok l <;> simp
    have h2' : fields.any (fun f => f.1 = fieldname_of l) = false := by
      revert h2; cases fields.any (fun f => f.1 = fieldname_of l) <;> simp
    have hra : '\r' ∉ after_fieldname l := fun hm => hr (mem_after_fieldname l _ hm)
    have h3' : is_lineend (peekc (get_fieldvalue (after_fieldname (crlf_expand l))).2) =
        true := by
      rw [ex_after_fieldname l hr h1', ex_get_fieldvalue _ hra]
      simp only
      rw [ex_peekc_lineend]
      exact h3
    rw [gp_step_done fields l h1' h2' h3,
      gp_step_done fields _ (by rw [ex_fieldname_ok l hr]; exact h1')
        (by rw [ex_fieldname_of l hr]; exact h2') h3']
    rw [ex_after_fieldname l hr h1', ex_get_fieldvalue _ hra, ex_fieldname_of l hr]
    rfl
  | case4 fields l h1 h2 h3 ih =>
    have h1' : fieldname_ok l = true := by
      revert h1; cases fieldname_ok l <;> simp
    have h2' : fields.any (fun f => f.1 = fieldname_of l) = false := by
      revert h2; cases fields.any (fun f => f.1 = fieldname_of l) <;> simp
    have h3' : is_lineend (peekc (get_fieldvalue (after_fieldname l)).2) = false := by
      revert h3; cases is_lineend (peekc (get_fieldvalue (after_fieldname l)).2) <;> simp
    have hra : '\r' ∉ after_fieldname l := fun hm => hr (mem_after_fieldname l _ hm)
    have hrv : '\r' ∉ (get_fieldvalue (after_fieldname l)).2 := by
      intro hm
      rw [get_fieldvalue] at hm
      exact hra (mem_get_fieldvalue_loop_snd [] _ _ hm)
    have h3n : is_lineend (peekc (get_fieldvalue (after_fieldname (crlf_expand l))).2) =
        false := by
      rw [ex_after_fieldname l hr h1', ex_get_fieldvalue _ hra]
      simp only
      rw [ex_peekc_lineend]
      exact h3'
    rw [gp_step_cont fields l h1' h2' h3',
      gp_step_cont fields _ (by rw [ex_fieldname_ok l hr]; exact h1')
        (by rw [ex_fieldname_of l hr]; exact h2') h3n]
    rw [ex_after_fieldname l hr h1', ex_get_fieldvalue _ hra, ex_fieldname_of l hr]
    exact ih hrv

theorem ex_get_paragraphs_loop (acc : List Paragraph) (l : List Char) (hr : '\r' ∉ l) :
    get_paragraphs_loop acc (crlf_expand l) = get_paragraphs_loop acc l := by
  induction acc, l using get_paragraphs_loop.induct with
  | case1 acc =>
    rfl
  | case2 acc rest =>
    rw [show crlf_expand (nul :: rest) = nul :: crlf_expand rest from by
      rw [crlf_expand, if_neg (by decide)]]
    rw [gps_step_nul acc nul _ rfl, gps_step_nul acc nul rest rfl]
  | case3 acc c rest h0 h1 ih =>
    have hrr : '\r' ∉ rest := fun hm => hr (List.mem_cons_of_mem c hm)
    by_cases hc : c = '\n'
    · subst hc
      rw [crlf_expand, if_pos rfl]
      rw [gps_step_blank acc '\r' _ (by decide) (by decide),
        gps_step_blank acc '\n' _ (by decide) (by decide),
        gps_step_blank acc '\n' rest (by decide) (by decide)]
      exact ih hrr
    · rw [crlf_expand, if_neg hc]
      rw [gps_step_blank acc c _ (by simp [h0]) h1,
        gps_step_blank acc c rest (by simp [h0]) h1]
      exact ih hrr
  | case4 acc c rest h0 h1 e he =>
    have h1' : (c = '\n' || c = '\r' || c = ' ' || c = '\t') = false := by
      revert h1; cases (c = '\n' || c = '\r' || c = ' ' || c = '\t') <;> simp
    have hc : ¬ c = '\n' := by
      intro hcc
      subst hcc
      simp at h1'
    have hlift : get_paragraph (crlf_expand (c :: rest)) = Except.error e := by
      rw [get_paragraph, ex_get_paragraph_loop [] (c :: rest) hr]
      rw [show get_paragraph_loop [] (c :: rest) = Except.error e from by
        rw [← get_paragraph]; exact he]
      rfl
    rw [show crlf_expand (c :: rest) = c :: crlf_expand rest from by
      rw [crlf_expand, if_neg hc]] at hlift ⊢
    rw [gps_step_err acc c _ e (by simp [h0]) h1' hlift,
      gps_step_err acc c rest e (by simp [h0]) h1' he]
  | case5 acc c rest h0 h1 pr hpr ih =>
    have h1' : (c = '\n' || c = '\r' || c = ' ' || c = '\t') = false := by
      revert h1; cases (c = '\n' || c = '\r' || c = ' ' || c = '\t') <;> simp
    have hc : ¬ c = '\n' := by
      intro hcc
      subst hcc
      simp at h1'
    have hrp : '\r' ∉ pr.2 :=
      fun hm => hr (mem_get_paragraph_loop_snd [] (c :: rest) pr '\r'
        (by rw [← get_paragraph]; exact hpr) hm)
    have hlift : get_paragraph (crlf_expand (c :: rest)) =
        Except.ok (pr.1, crlf_expand pr.2) := by
      rw [get_paragraph, ex_get_paragraph_loop [] (c :: rest) hr]
      rw [show get_paragraph_loop [] (c :: rest) = Except.ok pr from by
        rw [← get_paragraph]; exact hpr]
      rfl
    rw [show crlf_expand (c :: rest) = c :: crlf_expand rest from by
      rw [crlf_expand, if_neg hc]] at hlift ⊢
    rw [gps_step_ok acc c _ pr.1 (crlf_expand pr.2) (by simp [h0]) h1' hlift,
      gps_step_ok acc c rest pr.1 pr.2 (by simp [h0]) h1' (by simpa using hpr)]
    exact ih hrp

end CrlfParagraphs

/-- C6: replacing every `"\n"` terminator of a `'\r'`-free input by `"\r\n"`
leaves the parse result unchanged — the same Document with byte-identical field
values (and the same error on failing inputs).  Concretely,
`"A: 1\r\n"` is the CRLF sibling of `"A: 1\n"` and parses identically. -/
theorem claim_C6 :
    (∀ l : List Char, '\r' ∉ l →
      parse_paragraphs (crlf_expand l) = parse_paragraphs l) ∧
    crlf_expand ("A: 1\n".toList) = "A: 1\r\n".toList ∧
    parse_paragraphs ("A: 1\r\n".toList) = parse_paragraphs ("A: 1\n".toList) := by
  have hgen : ∀ l : List Char, '\r' ∉ l →
      parse_paragraphs (crlf_expand l) = parse_paragraphs l := by
    intro l hr
    rw [parse_paragraphs, parse_paragraphs, get_paragraphs, get_paragraphs,
      ex_get_paragraphs_loop [] l hr]
  have hconc : crlf_expand ("A: 1\n".toList) = "A: 1\r\n".toList := by decide
  refine ⟨hgen, hconc, ?_⟩
  rw [← hconc]
  exact hgen ("A: 1\n".toList) (by decide)

/-- C6 witness: the CRLF-equivalence applied to the concrete `'\r'`-free input
`"A: 1\nB: 2\n"`. -/
theorem claim_C6_witness :
    ('\r' ∉ "A: 1\nB: 2\n".toList) ∧
    parse_paragraphs (crlf_expand ("A: 1\nB: 2\n".toList)) =
      parse_paragraphs ("A: 1\nB: 2\n".toList) :=
  ⟨by decide, claim_C6.1 ("A: 1\nB: 2\n".toList) (by decide)⟩

end Vcpkg
